import Mathlib

/-
Verification of the lock-free data-structure library: a sequential (single
thread of execution) shallow embedding of the four core structures.

All counters in the C++ source are 64-bit size_t values.  They are modelled
as Nat; in every state considered here the counters stay far below 2^64, so
Nat arithmetic coincides with size_t arithmetic.  The one place where 64-bit
overflow is genuinely reachable - the final increment of next_power_of_2 -
carries an explicit reduction modulo 2^64.  The per-slot signed difference
is computed in Int, matching the intptr_t subtraction of the source for all
values below 2^63.

CAS retry loops are embedded with an explicit fuel parameter; a result of
none means the loop was still running when the fuel ran out (or that the
code performed an out-of-bounds / dangling access, which the model treats
as stuck).  In a sequential execution a compare_exchange on an unchanged
location succeeds, so the CAS is modelled as an equality test against the
current value of the word, exactly as the hardware would decide it.
-/

namespace MPMCQueue

/-- One slot of the Vyukov MPMC queue: an atomic sequence number plus raw
storage for the element.  storage = none models unconstructed bytes. -/
structure Slot (T : Type) where
  sequence : Nat
  storage : Option T
deriving DecidableEq

/-- The queue state: the two cursors, the capacity/mask pair and the slot
array (a list of length capacity). -/
structure State (T : Type) where
  capacity : Nat
  mask : Nat
  enqueue_pos : Nat
  dequeue_pos : Nat
  buffer : List (Slot T)
deriving DecidableEq

/-- next_power_of_2 from the source: bit-smearing on a 64-bit size_t.
Only the final increment can overflow, hence the explicit mod 2^64. -/
def next_power_of_2 (n : Nat) : Nat :=
  if n = 0 then 1 else
  let m0 := n - 1
  let m1 := m0 ||| (m0 >>> 1)
  let m2 := m1 ||| (m1 >>> 2)
  let m3 := m2 ||| (m2 >>> 4)
  let m4 := m3 ||| (m3 >>> 8)
  let m5 := m4 ||| (m4 >>> 16)
  let m6 := m5 ||| (m5 >>> 32)
  (m6 + 1) % 2 ^ 64

/-- The constructor: capacity rounded up, mask = capacity - 1, both cursors
zero, slot i initialised with sequence number i and unconstructed storage. -/
def init (T : Type) (capacity : Nat) : State T :=
  let c := next_power_of_2 capacity
  { capacity := c
    mask := c - 1
    enqueue_pos := 0
    dequeue_pos := 0
    buffer := (List.range c).map (fun i => { sequence := i, storage := none }) }

/-- Overwrite the slot at buffer index i (no-op when i is out of range,
which never happens in a well-formed state). -/
def setSlot (s : State T) (i : Nat) (sl : Slot T) : State T :=
  { s with buffer := s.buffer.set i sl }

/-- Overwrite only the sequence number of the slot at buffer index i,
leaving the raw storage as it was. -/
def setSlotSeq (s : State T) (i : Nat) (q : Nat) : State T :=
  { s with buffer :=
      match s.buffer[i]? with
      | none => s.buffer
      | some sl => s.buffer.set i { sl with sequence := q } }

/-- The slot examined by an operation working at logical position p. -/
def slotAt (s : State T) (p : Nat) : Option (Slot T) :=
  s.buffer[p &&& s.mask]?

/-- The claim loop of try_emplace: load the slot at pos &&& mask, compute
the signed difference sequence - pos, and either claim the slot by a CAS
on enqueue_pos (diff = 0), report the queue full (diff < 0), or reload the
cursor and retry (diff > 0, and also after a failed CAS). -/
def claimEnq (s : State T) : Nat → Nat → Option (Option (Nat × State T))
  | _, 0 => none
  | pos, fuel + 1 =>
    match s.buffer[pos &&& s.mask]? with
    | none => none
    | some node =>
      let diff : Int := (node.sequence : Int) - (pos : Int)
      if diff = 0 then
        if s.enqueue_pos = pos then
          some (some (pos, { s with enqueue_pos := pos + 1 }))
        else claimEnq s s.enqueue_pos fuel
      else if diff < 0 then some none
      else claimEnq s s.enqueue_pos fuel

/-- The claim loop of try_dequeue: identical shape, with expected sequence
pos + 1 and a CAS on dequeue_pos. -/
def claimDeq (s : State T) : Nat → Nat → Option (Option (Nat × State T))
  | _, 0 => none
  | pos, fuel + 1 =>
    match s.buffer[pos &&& s.mask]? with
    | none => none
    | some node =>
      let diff : Int := (node.sequence : Int) - ((pos : Int) + 1)
      if diff = 0 then
        if s.dequeue_pos = pos then
          some (some (pos, { s with dequeue_pos := pos + 1 }))
        else claimDeq s s.dequeue_pos fuel
      else if diff < 0 then some none
      else claimDeq s s.dequeue_pos fuel

/-- try_emplace with an element constructor that cannot fail: claim a slot,
construct the element in place, publish sequence = pos + 1.  Results:
none = out of fuel, some (false, s) = queue full, some (true, _) = stored. -/
def try_emplace (v : T) (s : State T) (fuel : Nat) : Option (Bool × State T) :=
  match claimEnq s s.enqueue_pos fuel with
  | none => none
  | some none => some (false, s)
  | some (some (pos, s1)) =>
    some (true, setSlot s1 (pos &&& s1.mask) { sequence := pos + 1, storage := some v })

/-- try_emplace with a fallible element constructor, modelling the catch
block of the source: on construction failure the slot sequence is set to
the sentinel pos + capacity and the exception is rethrown (Except.error
carries the state at the throw). -/
def try_emplace_exc (mk : Except E T) (s : State T) (fuel : Nat) :
    Option (Except (E × State T) (Bool × State T)) :=
  match claimEnq s s.enqueue_pos fuel with
  | none => none
  | some none => some (Except.ok (false, s))
  | some (some (pos, s1)) =>
    match mk with
    | Except.error e =>
      some (Except.error (e, setSlotSeq s1 (pos &&& s1.mask) (pos + s1.capacity)))
    | Except.ok v =>
      some (Except.ok (true, setSlot s1 (pos &&& s1.mask) { sequence := pos + 1, storage := some v }))

/-- try_dequeue returning an optional: claim, move the element out, destroy
the slot storage, republish sequence = pos + capacity.  Results: none = out
of fuel or read of unconstructed storage (never in a well-formed state),
some (none, s) = queue empty, some (some v, _) = dequeued v. -/
def try_dequeue (s : State T) (fuel : Nat) : Option (Option T × State T) :=
  match claimDeq s s.dequeue_pos fuel with
  | none => none
  | some none => some (none, s)
  | some (some (pos, s1)) =>
    match s1.buffer[pos &&& s1.mask]? with
    | none => none
    | some node =>
      match node.storage with
      | none => none
      | some v =>
        some (some v, setSlot s1 (pos &&& s1.mask) { sequence := pos + s1.capacity, storage := none })

/-- try_dequeue (T and out): same algorithm; the Option T component records
the assignment made to the caller's out parameter, none meaning the out
parameter was never touched. -/
def try_dequeue_out (s : State T) (fuel : Nat) : Option ((Bool × Option T) × State T) :=
  match claimDeq s s.dequeue_pos fuel with
  | none => none
  | some none => some ((false, none), s)
  | some (some (pos, s1)) =>
    match s1.buffer[pos &&& s1.mask]? with
    | none => none
    | some node =>
      match node.storage with
      | none => none
      | some v =>
        some ((true, some v), setSlot s1 (pos &&& s1.mask) { sequence := pos + s1.capacity, storage := none })

/-- size() of the source: enqueue_pos - dequeue_pos. -/
def size (s : State T) : Nat := s.enqueue_pos - s.dequeue_pos

/-- full() of the source: size() at least capacity. -/
def full (s : State T) : Bool := decide (s.capacity ≤ size s)

/-- empty() of the source: dequeue_pos at least enqueue_pos. -/
def isEmpty (s : State T) : Bool := decide (s.enqueue_pos ≤ s.dequeue_pos)

/-- Modelled from the spec: the number of elements currently resident, read
off the state as the number of slots whose storage holds a constructed
element. -/
def resident (s : State T) : Nat := s.buffer.countP (fun sl => sl.storage.isSome)

/-- Structural well-formedness: power-of-two capacity, mask = capacity - 1,
buffer of length capacity. -/
def wf (k : Nat) (s : State T) : Prop :=
  s.capacity = 2 ^ k ∧ s.mask = s.capacity - 1 ∧ s.buffer.length = s.capacity

/-- The sequential reachability invariant of the queue: pending is the list
of published-but-unconsumed values, oldest first.  Logical positions
dequeue_pos + j for j < pending.length hold published elements with
sequence = position + 1; the remaining positions of the current window are
claimable with sequence = position and unconstructed storage. -/
def Clean (k : Nat) (s : State T) (pending : List T) : Prop :=
  wf k s ∧
  s.enqueue_pos = s.dequeue_pos + pending.length ∧
  pending.length ≤ s.capacity ∧
  (∀ j : Fin pending.length,
    slotAt s (s.dequeue_pos + (j : Nat)) =
      some { sequence := s.dequeue_pos + (j : Nat) + 1, storage := some (pending.get j) }) ∧
  (∀ j : Fin s.capacity, pending.length ≤ (j : Nat) →
    slotAt s (s.dequeue_pos + (j : Nat)) =
      some { sequence := s.dequeue_pos + (j : Nat), storage := none })

/-- The degenerate family of states reachable only at capacity 1, where a
producer overwrote a full queue: the cursors have drifted at least two
apart and the single slot carries sequence = enqueue_pos. -/
def Sat (s : State T) : Prop :=
  s.capacity = 1 ∧ s.mask = 0 ∧ s.buffer.length = 1 ∧
  s.dequeue_pos + 2 ≤ s.enqueue_pos ∧
  ∃ v, slotAt s s.enqueue_pos = some { sequence := s.enqueue_pos, storage := some v }

/-- A single-threaded program over the queue. -/
inductive MOp (T : Type) where
  | enq (v : T)
  | deq
deriving DecidableEq

/-- Run a single-threaded program, collecting the successfully enqueued
values and the successfully dequeued values, in order.  The whole run is
none as soon as one operation runs out of fuel or gets stuck. -/
def runM (fuel : Nat) : State T → List (MOp T) → Option (State T × List T × List T)
  | s, [] => some (s, [], [])
  | s, MOp.enq v :: ops =>
    match try_emplace v s fuel with
    | none => none
    | some (true, s1) =>
      match runM fuel s1 ops with
      | none => none
      | some (t, ins, outs) => some (t, v :: ins, outs)
    | some (false, s1) => runM fuel s1 ops
  | s, MOp.deq :: ops =>
    match try_dequeue s fuel with
    | none => none
    | some (none, s1) => runM fuel s1 ops
    | some (some v, s1) =>
      match runM fuel s1 ops with
      | none => none
      | some (t, ins, outs) => some (t, ins, v :: outs)

end MPMCQueue

/-- Modelled from the spec: next_power_of_two(k), the least power of two
that is at least k, with next_power_of_two(0) = 1. -/
def specNextPow2 (k : Nat) : Nat :=
  if k = 0 then 1 else 2 ^ Nat.clog 2 k

/-- The or-shift cascade of next_power_of_2 on its own, for reasoning: it
smears the highest set bit of a 64-bit value into all lower positions. -/
def smear64 (m : Nat) : Nat :=
  let m1 := m ||| (m >>> 1)
  let m2 := m1 ||| (m1 >>> 2)
  let m3 := m2 ||| (m2 >>> 4)
  let m4 := m3 ||| (m3 >>> 8)
  let m5 := m4 ||| (m4 >>> 16)
  m5 ||| (m5 >>> 32)

namespace RingBuffer

/-- The SPSC ring buffer state: the two shared cursors, each side's private
cached copy of the peer cursor, and the element storage (entry none models
unconstructed bytes). -/
structure State (T : Type) where
  capacity : Nat
  mask : Nat
  write_pos : Nat
  cached_read_pos : Nat
  read_pos : Nat
  cached_write_pos : Nat
  storage : List (Option T)
deriving DecidableEq

/-- next_power_of_2 from the ring buffer source; textually the same 64-bit
bit-smearing as the queue's. -/
def next_power_of_2 (n : Nat) : Nat :=
  if n = 0 then 1 else
  let m0 := n - 1
  let m1 := m0 ||| (m0 >>> 1)
  let m2 := m1 ||| (m1 >>> 2)
  let m3 := m2 ||| (m2 >>> 4)
  let m4 := m3 ||| (m3 >>> 8)
  let m5 := m4 ||| (m4 >>> 16)
  let m6 := m5 ||| (m5 >>> 32)
  (m6 + 1) % 2 ^ 64

/-- The constructor: rounded capacity, all four cursors zero, raw storage. -/
def init (T : Type) (capacity : Nat) : State T :=
  let c := next_power_of_2 capacity
  { capacity := c
    mask := c - 1
    write_pos := 0
    cached_read_pos := 0
    read_pos := 0
    cached_write_pos := 0
    storage := List.replicate c none }

/-- try_write: check fullness against the cached read cursor, refreshing the
cache once (acquire load of read_pos) when the stale check trips; on success
construct into slot write_pos &&& mask and publish write_pos + 1.
The cursors are size_t; in every state considered here
cached_read_pos ≤ read_pos ≤ write_pos, so Nat subtraction agrees with the
wrapping size_t subtraction of the source. -/
def try_write (v : T) (s : State T) : Bool × State T :=
  let write := s.write_pos
  let s1 := if s.capacity ≤ write - s.cached_read_pos
            then { s with cached_read_pos := s.read_pos } else s
  if s.capacity ≤ write - s1.cached_read_pos then (false, s1)
  else
    (true, { s1 with storage := s1.storage.set (write &&& s1.mask) (some v)
                     write_pos := write + 1 })

/-- try_emplace of the source: textually the same algorithm as try_write
with the element constructed from the forwarded arguments. -/
def try_emplace (v : T) (s : State T) : Bool × State T :=
  let write := s.write_pos
  let s1 := if s.capacity ≤ write - s.cached_read_pos
            then { s with cached_read_pos := s.read_pos } else s
  if s.capacity ≤ write - s1.cached_read_pos then (false, s1)
  else
    (true, { s1 with storage := s1.storage.set (write &&& s1.mask) (some v)
                     write_pos := write + 1 })

/-- try_write with a fallible element constructor, modelling the catch block
of the source: a construction failure is caught and reported as the boolean
false, without touching write_pos or the storage.  The Except return type
shows that no exception ever escapes this function. -/
def try_write_exc (mk : Except E T) (s : State T) : Except E (Bool × State T) :=
  let write := s.write_pos
  let s1 := if s.capacity ≤ write - s.cached_read_pos
            then { s with cached_read_pos := s.read_pos } else s
  if s.capacity ≤ write - s1.cached_read_pos then Except.ok (false, s1)
  else
    match mk with
    | Except.error _ => Except.ok (false, s1)
    | Except.ok v =>
      Except.ok (true, { s1 with storage := s1.storage.set (write &&& s1.mask) (some v)
                                 write_pos := write + 1 })

/-- try_read: check emptiness against the cached write cursor, refreshing
once when the stale check trips; on success move the element out, destroy
the slot, publish read_pos + 1.  A read of unconstructed storage (never in
a well-formed state) is modelled as stuck (none). -/
def try_read (s : State T) : Option (Option T × State T) :=
  let read := s.read_pos
  let s1 := if s.cached_write_pos ≤ read
            then { s with cached_write_pos := s.write_pos } else s
  if s1.cached_write_pos ≤ read then some (none, s1)
  else
    match s1.storage[read &&& s1.mask]? with
    | none => none
    | some none => none
    | some (some v) =>
      some (some v, { s1 with storage := s1.storage.set (read &&& s1.mask) none
                              read_pos := read + 1 })

/-- try_read (T and out): same algorithm; the Option T component records the
assignment to the caller's out parameter, none meaning it was untouched. -/
def try_read_out (s : State T) : Option ((Bool × Option T) × State T) :=
  let read := s.read_pos
  let s1 := if s.cached_write_pos ≤ read
            then { s with cached_write_pos := s.write_pos } else s
  if s1.cached_write_pos ≤ read then some ((false, none), s1)
  else
    match s1.storage[read &&& s1.mask]? with
    | none => none
    | some none => none
    | some (some v) =>
      some ((true, some v), { s1 with storage := s1.storage.set (read &&& s1.mask) none
                                      read_pos := read + 1 })

/-- Sequential reachability invariant of the ring buffer: pending is the
list of written-but-unread values, oldest first, held at positions
read_pos + j; each cached cursor is a lower bound on the true one. -/
def Clean (k : Nat) (s : State T) (pending : List T) : Prop :=
  s.capacity = 2 ^ k ∧ s.mask = s.capacity - 1 ∧ s.storage.length = s.capacity ∧
  s.write_pos = s.read_pos + pending.length ∧
  pending.length ≤ s.capacity ∧
  s.cached_read_pos ≤ s.read_pos ∧
  s.cached_write_pos ≤ s.write_pos ∧
  (∀ j : Fin pending.length,
    s.storage[(s.read_pos + (j : Nat)) &&& s.mask]? = some (some (pending.get j)))

/-- A single-threaded program over the ring buffer. -/
inductive ROp (T : Type) where
  | wr (v : T)
  | rd
deriving DecidableEq

/-- Run a single-threaded program, collecting successful writes and reads. -/
def runR : State T → List (ROp T) → Option (State T × List T × List T)
  | s, [] => some (s, [], [])
  | s, ROp.wr v :: ops =>
    match try_write v s with
    | (true, s1) =>
      match runR s1 ops with
      | none => none
      | some (t, ins, outs) => some (t, v :: ins, outs)
    | (false, s1) => runR s1 ops
  | s, ROp.rd :: ops =>
    match try_read s with
    | none => none
    | some (none, s1) => runR s1 ops
    | some (some v, s1) =>
      match runR s1 ops with
      | none => none
      | some (t, ins, outs) => some (t, ins, v :: outs)

end RingBuffer

namespace LockFreeStack

/-- A stack node: the element and the next pointer (none = nullptr). -/
structure Node (T : Type) where
  data : T
  next : Option Nat
deriving DecidableEq

/-- The stack state: an address-keyed heap of live nodes, the head pointer
(none = nullptr) and an allocation counter delivering fresh addresses. -/
structure State (T : Type) where
  heap : List (Nat × Node T)
  head : Option Nat
  fresh : Nat
deriving DecidableEq

/-- The default-constructed stack: head = nullptr. -/
def init (T : Type) : State T :=
  { heap := [], head := none, fresh := 0 }

/-- push: allocate a node whose next is the observed head, then CAS head to
it; in the sequential model the CAS succeeds at once. -/
def push (v : T) (s : State T) : State T :=
  { heap := (s.fresh, { data := v, next := s.head }) :: s.heap
    head := some s.fresh
    fresh := s.fresh + 1 }

/-- try_pop: if head is observed null return false leaving everything
untouched (the Option T component is the assignment to the caller's out
parameter, none = untouched); otherwise CAS head to head->next (succeeds
at once sequentially), read the data, delete the node and return true.
A dangling head pointer is modelled as stuck (none). -/
def try_pop (s : State T) : Option (Bool × Option T × State T) :=
  match s.head with
  | none => some (false, none, s)
  | some a =>
    match s.heap.lookup a with
    | none => none
    | some nd =>
      some (true, some nd.data,
        { heap := s.heap.eraseP (fun e => e.1 == a), head := nd.next, fresh := s.fresh })

end LockFreeStack

namespace LockFreeQueue

/-- A queue node: the element and the atomic next pointer (none = nullptr). -/
structure Node (T : Type) where
  data : T
  next : Option Nat
deriving DecidableEq

/-- The Michael-Scott queue state: an address-keyed heap of live nodes, the
head and tail pointers (never null: they are initialised to the dummy node
and only ever CASed to existing nodes) and an allocation counter. -/
structure State (T : Type) where
  heap : List (Nat × Node T)
  head : Nat
  tail : Nat
  fresh : Nat
deriving DecidableEq

/-- The constructor: a single dummy node holding a value-initialised
element; head and tail both point at it. -/
def init (d : T) : State T :=
  { heap := [(0, { data := d, next := none })], head := 0, tail := 0, fresh := 1 }

/-- Overwrite the next pointer of the node at address a. -/
def setNext (h : List (Nat × Node T)) (a : Nat) (nx : Option Nat) : List (Nat × Node T) :=
  h.map (fun e => if e.1 = a then (e.1, { e.2 with next := nx }) else e)

/-- The push retry loop, entered with the new node (address a) already
allocated: read tail and tail->next; if next is null, CAS it to the new
node and help tail forward (both succeed at once sequentially); otherwise
help the lagging tail forward and retry. -/
def pushLoop (a : Nat) : State T → Nat → Option (State T)
  | _, 0 => none
  | s, fuel + 1 =>
    let old_tail := s.tail
    match s.heap.lookup old_tail with
    | none => none
    | some tn =>
      match tn.next with
      | none => some { s with heap := setNext s.heap old_tail (some a), tail := a }
      | some t2 => pushLoop a { s with tail := t2 } fuel

/-- push: allocate the node, then run the linking loop. -/
def push (v : T) (s : State T) (fuel : Nat) : Option (State T) :=
  pushLoop s.fresh
    { s with heap := (s.fresh, { data := v, next := none }) :: s.heap, fresh := s.fresh + 1 }
    fuel

/-- pop: read head, tail and head->next.  If head = tail the queue is empty
when head->next is null (return the failure result with nothing changed),
else the lagging tail is helped forward and the loop retries.  Otherwise
CAS head to head->next (succeeds at once sequentially), extract the data of
the node that was head->next, and delete the old head, vacated from the
dummy role.  Dangling dereferences are modelled as stuck (none). -/
def pop : State T → Nat → Option (Option T × State T)
  | _, 0 => none
  | s, fuel + 1 =>
    let old_head := s.head
    let old_tail := s.tail
    match s.heap.lookup old_head with
    | none => none
    | some hn =>
      if old_head = old_tail then
        match hn.next with
        | none => some (none, s)
        | some t2 => pop { s with tail := t2 } fuel
      else
        match hn.next with
        | none => none
        | some a =>
          match s.heap.lookup a with
          | none => none
          | some nn =>
            some (some nn.data,
              { s with head := a, heap := s.heap.eraseP (fun e => e.1 == old_head) })

/-- The chain of live node addresses from a given address down the next
pointers to a node whose next is null, visiting no address twice. -/
inductive Chain (h : List (Nat × Node T)) : Nat → List Nat → Prop where
  | last (a : Nat) (nd : Node T) (h1 : h.lookup a = some nd) (h2 : nd.next = none) :
      Chain h a [a]
  | cons (a : Nat) (nd : Node T) (b : Nat) (l : List Nat) (h1 : h.lookup a = some nd)
      (h2 : nd.next = some b) (h3 : Chain h b l) (h4 : a ∉ l) : Chain h a (a :: l)

/-- Well-formed queue: the heap keys are distinct and a chain runs from
head to tail, tail being the last node (its next is null). -/
def wfQ (s : State T) : Prop :=
  (s.heap.map Prod.fst).Nodup ∧
  ∃ l, Chain s.heap s.head l ∧ l.getLast? = some s.tail

end LockFreeQueue

/-
Theorems.  First the arithmetic of next_power_of_2, then the behaviour of
each structure, then the claim theorems with their witnesses and
counterexamples.
-/

theorem testBit_orShift_iff {m x c : Nat}
    (hx : ∀ i, (x.testBit i = true ↔ ∃ o, o < c ∧ m.testBit (i + o) = true)) (i : Nat) :
    ((x ||| (x >>> c)).testBit i = true ↔ ∃ o, o < 2 * c ∧ m.testBit (i + o) = true) := by
  rw [Nat.testBit_or, Nat.testBit_shiftRight, Bool.or_eq_true, hx, hx]
  constructor
  · rintro (⟨o, ho, hb⟩ | ⟨o, ho, hb⟩)
    · exact ⟨o, by omega, hb⟩
    · refine ⟨c + o, by omega, ?_⟩
      have h : i + (c + o) = c + i + o := by omega
      rw [h]; exact hb
  · rintro ⟨o, ho, hb⟩
    by_cases h : o < c
    · exact Or.inl ⟨o, h, hb⟩
    · refine Or.inr ⟨o - c, by omega, ?_⟩
      have h2 : c + i + (o - c) = i + o := by omega
      rw [h2]; exact hb

theorem smear64_testBit (m i : Nat) :
    ((smear64 m).testBit i = true) ↔ ∃ o, o < 64 ∧ m.testBit (i + o) = true := by
  have h0 : ∀ i, (m.testBit i = true ↔ ∃ o, o < 1 ∧ m.testBit (i + o) = true) := by
    intro i
    constructor
    · intro h; exact ⟨0, by omega, by simpa using h⟩
    · rintro ⟨o, ho, hb⟩
      have h1 : o = 0 := by omega
      subst h1; simpa using hb
  have h1 := testBit_orShift_iff h0
  have h2 := testBit_orShift_iff h1
  have h3 := testBit_orShift_iff h2
  have h4 := testBit_orShift_iff h3
  have h5 := testBit_orShift_iff h4
  have h6 := testBit_orShift_iff h5
  simpa [smear64] using h6 i

theorem smear64_eq (m t : Nat) (hm : m < 2 ^ t) (ht : t ≤ 64)
    (hlow : t = 0 ∨ 2 ^ (t - 1) ≤ m) : smear64 m = 2 ^ t - 1 := by
  apply Nat.eq_of_testBit_eq
  intro i
  rw [Nat.testBit_two_pow_sub_one]
  rcases Nat.lt_or_ge i t with hi | hi
  · have hbit : (smear64 m).testBit i = true := by
      rw [smear64_testBit]
      rcases hlow with h0 | hlow
      · omega
      · obtain ⟨j, hj, hbj⟩ := Nat.ge_two_pow_implies_high_bit_true hlow
        have hjm : 2 ^ j ≤ m := Nat.testBit_implies_ge hbj
        have hjt : j < t := by
          by_contra hge
          push_neg at hge
          have h2 : (2 : Nat) ^ t ≤ 2 ^ j := Nat.pow_le_pow_right (by omega) hge
          omega
        refine ⟨j - i, by omega, ?_⟩
        have h3 : i + (j - i) = j := by omega
        rw [h3]; exact hbj
    rw [hbit]
    simp [hi]
  · cases hb : (smear64 m).testBit i with
    | false => simp [Nat.not_lt.2 hi]
    | true =>
      exfalso
      obtain ⟨o, ho, hbo⟩ := (smear64_testBit m i).mp hb
      have h1 : 2 ^ (i + o) ≤ m := Nat.testBit_implies_ge hbo
      have h2 : (2 : Nat) ^ t ≤ 2 ^ (i + o) := Nat.pow_le_pow_right (by omega) (by omega)
      omega

theorem mpmc_npot_eq_smear (n : Nat) (h : n ≠ 0) :
    MPMCQueue.next_power_of_2 n = (smear64 (n - 1) + 1) % 2 ^ 64 := by
  unfold MPMCQueue.next_power_of_2 smear64
  rw [if_neg h]

theorem rb_npot_eq_mpmc (n : Nat) :
    RingBuffer.next_power_of_2 n = MPMCQueue.next_power_of_2 n := rfl

theorem mpmc_npot_eq_spec (n : Nat) (h : n ≤ 2 ^ 63) :
    MPMCQueue.next_power_of_2 n = specNextPow2 n := by
  by_cases h0 : n = 0
  · subst h0; rfl
  · have h1 : 1 ≤ n := Nat.one_le_iff_ne_zero.2 h0
    rw [mpmc_npot_eq_smear n h0]
    have hs : Nat.clog 2 n ≤ 63 := (Nat.le_pow_iff_clog_le (by omega)).1 h
    have hub : n ≤ 2 ^ Nat.clog 2 n := Nat.le_pow_clog (by omega) n
    have hsm : smear64 (n - 1) = 2 ^ Nat.clog 2 n - 1 := by
      apply smear64_eq
      · omega
      · omega
      · by_cases h2 : n = 1
        · left
          have h3 := (Nat.le_pow_iff_clog_le (show (1 : Nat) < 2 by omega)).1
            (show n ≤ 2 ^ 0 by omega)
          omega
        · right
          have h3 : 1 < n := by omega
          have h4 := Nat.pow_pred_clog_lt_self (show (1 : Nat) < 2 by omega) h3
          have h5 : 2 ^ (Nat.clog 2 n - 1) < n := by
            simpa [Nat.pred_eq_sub_one] using h4
          omega
    rw [hsm]
    have hlt : (2 : Nat) ^ Nat.clog 2 n < 2 ^ 64 :=
      lt_of_le_of_lt (Nat.pow_le_pow_right (by omega) hs) (by norm_num)
    have hp : (1 : Nat) ≤ 2 ^ Nat.clog 2 n := Nat.one_le_two_pow
    have he : 2 ^ Nat.clog 2 n - 1 + 1 = 2 ^ Nat.clog 2 n := by omega
    rw [he, Nat.mod_eq_of_lt hlt]
    unfold specNextPow2
    rw [if_neg h0]

theorem mpmc_npot_overflow (n : Nat) (h1 : 2 ^ 63 < n) (h2 : n ≤ 2 ^ 64) :
    MPMCQueue.next_power_of_2 n = 0 := by
  have h0 : n ≠ 0 := by omega
  rw [mpmc_npot_eq_smear n h0]
  have hsm : smear64 (n - 1) = 2 ^ 64 - 1 := by
    apply smear64_eq
    · omega
    · omega
    · right
      have : (2 : Nat) ^ 64 - 1 = 2 ^ 63 + (2 ^ 63 - 1) := by norm_num
      omega
  rw [hsm]
  have he : (2 : Nat) ^ 64 - 1 + 1 = 2 ^ 64 := by norm_num
  rw [he, Nat.mod_self]

theorem clog_two_of_5 : specNextPow2 5 = 8 := by
  unfold specNextPow2
  rw [if_neg (by omega)]
  have h1 : Nat.clog 2 5 ≤ 3 := (Nat.le_pow_iff_clog_le (by omega)).1 (by norm_num)
  have h2 : ¬ Nat.clog 2 5 ≤ 2 := by
    intro h
    have := (Nat.le_pow_iff_clog_le (show (1 : Nat) < 2 by omega)).2 h
    norm_num at this
  have h3 : Nat.clog 2 5 = 3 := by omega
  rw [h3]
  norm_num

theorem and_two_pow_sub_one (p k : Nat) : p &&& (2 ^ k - 1) = p % 2 ^ k := by
  apply Nat.eq_of_testBit_eq
  intro i
  rw [Nat.testBit_and, Nat.testBit_two_pow_sub_one, Nat.testBit_mod_two_pow]
  exact Bool.and_comm _ _

theorem add_mod_window_inj {c d j j2 : Nat} (hj : j < c) (hj2 : j2 < c)
    (h : (d + j) % c = (d + j2) % c) : j = j2 := by
  rcases Nat.le_total j j2 with hle | hle
  · have hmod : (d + j) ≡ (d + j2) [MOD c] := h
    have hdvd : c ∣ (d + j2) - (d + j) := (Nat.modEq_iff_dvd' (by omega)).1 hmod
    have h0 : (d + j2) - (d + j) = 0 := Nat.eq_zero_of_dvd_of_lt hdvd (by omega)
    omega
  · have hmod : (d + j2) ≡ (d + j) [MOD c] := h.symm
    have hdvd : c ∣ (d + j) - (d + j2) := (Nat.modEq_iff_dvd' (by omega)).1 hmod
    have h0 : (d + j) - (d + j2) = 0 := Nat.eq_zero_of_dvd_of_lt hdvd (by omega)
    omega

namespace MPMCQueue

theorem claimEnq_zero (s : State T) (pos : Nat) : claimEnq s pos 0 = none := rfl

theorem claimEnq_succ (s : State T) (pos fuel : Nat) :
    claimEnq s pos (fuel + 1) =
      match s.buffer[pos &&& s.mask]? with
      | none => none
      | some node =>
        if (node.sequence : Int) - (pos : Int) = 0 then
          if s.enqueue_pos = pos then some (some (pos, { s with enqueue_pos := pos + 1 }))
          else claimEnq s s.enqueue_pos fuel
        else if (node.sequence : Int) - (pos : Int) < 0 then some none
        else claimEnq s s.enqueue_pos fuel := rfl

theorem claimDeq_zero (s : State T) (pos : Nat) : claimDeq s pos 0 = none := rfl

theorem claimDeq_succ (s : State T) (pos fuel : Nat) :
    claimDeq s pos (fuel + 1) =
      match s.buffer[pos &&& s.mask]? with
      | none => none
      | some node =>
        if (node.sequence : Int) - ((pos : Int) + 1) = 0 then
          if s.dequeue_pos = pos then some (some (pos, { s with dequeue_pos := pos + 1 }))
          else claimDeq s s.dequeue_pos fuel
        else if (node.sequence : Int) - ((pos : Int) + 1) < 0 then some none
        else claimDeq s s.dequeue_pos fuel := rfl

theorem claimEnq_hit {T} {s : State T} {node : Slot T}
    (hnode : s.buffer[s.enqueue_pos &&& s.mask]? = some node)
    (hseq : node.sequence = s.enqueue_pos) (fuel : Nat) :
    claimEnq s s.enqueue_pos (fuel + 1) =
      some (some (s.enqueue_pos, { s with enqueue_pos := s.enqueue_pos + 1 })) := by
  rw [claimEnq_succ, hnode]
  simp [hseq]

theorem claimEnq_fullret {T} {s : State T} {pos : Nat} {node : Slot T}
    (hnode : s.buffer[pos &&& s.mask]? = some node)
    (hlt : node.sequence < pos) (fuel : Nat) :
    claimEnq s pos (fuel + 1) = some none := by
  rw [claimEnq_succ, hnode]
  have c1 : ¬ ((node.sequence : Int) - (pos : Int) = 0) := by
    intro hc; omega
  have c2 : (node.sequence : Int) - (pos : Int) < 0 := by omega
  simp only [c1, if_false, c2, if_true]

theorem claimEnq_retry {T} {s : State T} {pos : Nat} {node : Slot T}
    (hnode : s.buffer[pos &&& s.mask]? = some node)
    (hgt : pos < node.sequence) (fuel : Nat) :
    claimEnq s pos (fuel + 1) = claimEnq s s.enqueue_pos fuel := by
  rw [claimEnq_succ, hnode]
  have c1 : ¬ ((node.sequence : Int) - (pos : Int) = 0) := by
    intro hc; omega
  have c2 : ¬ ((node.sequence : Int) - (pos : Int) < 0) := by
    intro hc; omega
  simp only [c1, if_false, c2]

theorem claimDeq_hit {T} {s : State T} {node : Slot T}
    (hnode : s.buffer[s.dequeue_pos &&& s.mask]? = some node)
    (hseq : node.sequence = s.dequeue_pos + 1) (fuel : Nat) :
    claimDeq s s.dequeue_pos (fuel + 1) =
      some (some (s.dequeue_pos, { s with dequeue_pos := s.dequeue_pos + 1 })) := by
  rw [claimDeq_succ, hnode]
  have c1 : (node.sequence : Int) - ((s.dequeue_pos : Int) + 1) = 0 := by omega
  simp only [c1, if_true, if_pos rfl]

theorem claimDeq_emptyret {T} {s : State T} {pos : Nat} {node : Slot T}
    (hnode : s.buffer[pos &&& s.mask]? = some node)
    (hlt : node.sequence < pos + 1) (fuel : Nat) :
    claimDeq s pos (fuel + 1) = some none := by
  rw [claimDeq_succ, hnode]
  have c1 : ¬ ((node.sequence : Int) - ((pos : Int) + 1) = 0) := by
    intro hc; omega
  have c2 : (node.sequence : Int) - ((pos : Int) + 1) < 0 := by omega
  simp only [c1, if_false, c2, if_true]

theorem claimDeq_retry {T} {s : State T} {pos : Nat} {node : Slot T}
    (hnode : s.buffer[pos &&& s.mask]? = some node)
    (hgt : pos + 1 < node.sequence) (fuel : Nat) :
    claimDeq s pos (fuel + 1) = claimDeq s s.dequeue_pos fuel := by
  rw [claimDeq_succ, hnode]
  have c1 : ¬ ((node.sequence : Int) - ((pos : Int) + 1) = 0) := by
    intro hc; omega
  have c2 : ¬ ((node.sequence : Int) - ((pos : Int) + 1) < 0) := by
    intro hc; omega
  simp only [c1, if_false, c2]

theorem claimDeq_stuck {T} {s : State T} {node : Slot T}
    (hnode : s.buffer[s.dequeue_pos &&& s.mask]? = some node)
    (hgt : s.dequeue_pos + 1 < node.sequence) :
    ∀ fuel, claimDeq s s.dequeue_pos fuel = none := by
  intro fuel
  induction fuel with
  | zero => rfl
  | succ fuel ih =>
    rw [claimDeq_succ, hnode]
    have c1 : ¬ ((node.sequence : Int) - ((s.dequeue_pos : Int) + 1) = 0) := by
      intro hc; omega
    have c2 : ¬ ((node.sequence : Int) - ((s.dequeue_pos : Int) + 1) < 0) := by
      intro hc; omega
    simp only [c1, if_false, c2]
    exact ih

end MPMCQueue

namespace MPMCQueue

theorem setSlot_capacity (s : State T) (i : Nat) (sl : Slot T) :
    (setSlot s i sl).capacity = s.capacity := rfl

theorem setSlot_mask (s : State T) (i : Nat) (sl : Slot T) :
    (setSlot s i sl).mask = s.mask := rfl

theorem setSlot_enqueue_pos (s : State T) (i : Nat) (sl : Slot T) :
    (setSlot s i sl).enqueue_pos = s.enqueue_pos := rfl

theorem setSlot_dequeue_pos (s : State T) (i : Nat) (sl : Slot T) :
    (setSlot s i sl).dequeue_pos = s.dequeue_pos := rfl

theorem wf_cap_pos {k : Nat} {s : State T} (h : wf k s) : 0 < s.capacity := by
  rw [h.1]; exact Nat.pos_pow_of_pos k (by omega)

theorem slotAt_mod {k : Nat} {s : State T} (hwf : wf k s) (p : Nat) :
    slotAt s p = s.buffer[p % 2 ^ k]? := by
  unfold slotAt
  rw [hwf.2.1, hwf.1, and_two_pow_sub_one]

theorem slotAt_congr {k : Nat} {s : State T} (hwf : wf k s) {p q : Nat}
    (h : p % 2 ^ k = q % 2 ^ k) : slotAt s p = slotAt s q := by
  rw [slotAt_mod hwf, slotAt_mod hwf, h]

theorem slotAt_setSlot {k : Nat} {s : State T} (hwf : wf k s) (p q : Nat) (sl : Slot T) :
    slotAt (setSlot s (q &&& s.mask) sl) p =
      if p % 2 ^ k = q % 2 ^ k then some sl else slotAt s p := by
  have hp : slotAt s p = s.buffer[p % 2 ^ k]? := slotAt_mod hwf p
  obtain ⟨hc, hm, hl⟩ := hwf
  show (s.buffer.set (q &&& s.mask) sl)[p &&& s.mask]? = _
  rw [hm, hc, and_two_pow_sub_one, and_two_pow_sub_one, hp]
  by_cases h : p % 2 ^ k = q % 2 ^ k
  · rw [if_pos h, h]
    exact List.getElem?_set_self (by rw [hl, hc]; exact Nat.mod_lt _ (Nat.pos_pow_of_pos k (by omega)))
  · rw [if_neg h]
    exact List.getElem?_set_ne (fun hc2 => h hc2.symm)

theorem Clean.slot_enq_free {k : Nat} {s : State T} {pending : List T}
    (h : Clean k s pending) (hlt : pending.length < s.capacity) :
    slotAt s s.enqueue_pos = some { sequence := s.enqueue_pos, storage := none } := by
  have h5 := h.2.2.2.2 ⟨pending.length, hlt⟩ (le_refl _)
  rw [h.2.1]
  exact h5

theorem Clean.slot_enq_full {k : Nat} {s : State T} {pending : List T}
    (h : Clean k s pending) (hlen : pending.length = s.capacity) :
    ∃ hlen0 : 0 < pending.length,
      slotAt s s.enqueue_pos =
        some { sequence := s.dequeue_pos + 1, storage := some (pending.get ⟨0, hlen0⟩) } := by
  have hcap : 0 < s.capacity := wf_cap_pos h.1
  have hlen0 : 0 < pending.length := by omega
  refine ⟨hlen0, ?_⟩
  have h4 := h.2.2.2.1 ⟨0, hlen0⟩
  have hcong : slotAt s s.enqueue_pos = slotAt s (s.dequeue_pos + 0) := by
    apply slotAt_congr h.1
    rw [h.2.1, hlen, h.1.1]
    simp [Nat.add_mod_right]
  rw [hcong]
  simpa using h4

theorem Clean.enq_step {k : Nat} {s : State T} {pending : List T}
    (h : Clean k s pending) (hlt : pending.length < s.capacity) (v : T) :
    Clean k (setSlot { s with enqueue_pos := s.enqueue_pos + 1 } (s.enqueue_pos &&& s.mask)
      { sequence := s.enqueue_pos + 1, storage := some v }) (pending ++ [v]) := by
  obtain ⟨hwf, hepos, hlen, hfull, hfree⟩ := h
  have hcap : 0 < s.capacity := wf_cap_pos hwf
  have hwf' : wf k ({ s with enqueue_pos := s.enqueue_pos + 1 } : State T) := hwf
  refine ⟨⟨hwf.1, hwf.2.1, by simpa [setSlot] using hwf.2.2⟩, ?_, ?_, ?_, ?_⟩
  · show s.enqueue_pos + 1 = s.dequeue_pos + (pending ++ [v]).length
    simp only [List.length_append, List.length_cons, List.length_nil]
    omega
  · show (pending ++ [v]).length ≤ s.capacity
    simp only [List.length_append, List.length_cons, List.length_nil]
    omega
  · intro j
    have hj : (j : Nat) < pending.length + 1 := by
      have := j.2
      simpa using this
    show slotAt (setSlot { s with enqueue_pos := s.enqueue_pos + 1 } (s.enqueue_pos &&& s.mask)
        { sequence := s.enqueue_pos + 1, storage := some v }) (s.dequeue_pos + (j : Nat)) =
      some { sequence := s.dequeue_pos + (j : Nat) + 1, storage := some ((pending ++ [v]).get j) }
    rw [slotAt_setSlot hwf']
    by_cases hj2 : (j : Nat) = pending.length
    · rw [if_pos (by rw [hepos, hj2])]
      have hval : (pending ++ [v]).get j = v := by
        rw [List.get_eq_getElem]
        have : (j : Nat) = pending.length := hj2
        simp only [this]
        exact List.getElem_concat_length pending v pending.length rfl (by simp)
      rw [hval]
      have hseq : s.enqueue_pos + 1 = s.dequeue_pos + (j : Nat) + 1 := by omega
      rw [hseq]
    · have hne : ¬ ((s.dequeue_pos + (j : Nat)) % 2 ^ k = s.enqueue_pos % 2 ^ k) := by
        rw [hepos]
        intro hc
        exact hj2 (add_mod_window_inj (by rw [← hwf.1]; omega) (by rw [← hwf.1]; omega) hc)
      rw [if_neg hne]
      have hjlt : (j : Nat) < pending.length := by omega
      have h4 := hfull ⟨(j : Nat), hjlt⟩
      have hval : (pending ++ [v]).get j = pending.get ⟨(j : Nat), hjlt⟩ := by
        rw [List.get_eq_getElem, List.get_eq_getElem]
        exact List.getElem_append_left hjlt
      rw [hval]
      exact h4
  · intro j hj
    have hjv : (j : Nat) < s.capacity := j.2
    have hj1 : pending.length + 1 ≤ (j : Nat) := by
      simpa using hj
    show slotAt (setSlot { s with enqueue_pos := s.enqueue_pos + 1 } (s.enqueue_pos &&& s.mask)
        { sequence := s.enqueue_pos + 1, storage := some v }) (s.dequeue_pos + (j : Nat)) =
      some { sequence := s.dequeue_pos + (j : Nat), storage := none }
    rw [slotAt_setSlot hwf']
    have hne : ¬ ((s.dequeue_pos + (j : Nat)) % 2 ^ k = s.enqueue_pos % 2 ^ k) := by
      rw [hepos]
      intro hc
      have := add_mod_window_inj (j := (j : Nat)) (by rw [← hwf.1]; omega)
        (by rw [← hwf.1]; omega) hc
      omega
    rw [if_neg hne]
    exact hfree j (by omega)

theorem Clean.deq_step {k : Nat} {s : State T} {v : T} {rest : List T}
    (h : Clean k s (v :: rest)) :
    Clean k (setSlot { s with dequeue_pos := s.dequeue_pos + 1 } (s.dequeue_pos &&& s.mask)
      { sequence := s.dequeue_pos + s.capacity, storage := none }) rest := by
  obtain ⟨hwf, hepos, hlen, hfull, hfree⟩ := h
  have hcap : 0 < s.capacity := wf_cap_pos hwf
  have hlen2 : rest.length + 1 ≤ s.capacity := by simpa using hlen
  have hwf' : wf k ({ s with dequeue_pos := s.dequeue_pos + 1 } : State T) := hwf
  refine ⟨⟨hwf.1, hwf.2.1, by simpa [setSlot] using hwf.2.2⟩, ?_, ?_, ?_, ?_⟩
  · show s.enqueue_pos = s.dequeue_pos + 1 + rest.length
    simp only [List.length_cons] at hepos
    omega
  · show rest.length ≤ s.capacity
    omega
  · intro j
    have hj : (j : Nat) < rest.length := j.2
    show slotAt (setSlot { s with dequeue_pos := s.dequeue_pos + 1 } (s.dequeue_pos &&& s.mask)
        { sequence := s.dequeue_pos + s.capacity, storage := none })
        (s.dequeue_pos + 1 + (j : Nat)) =
      some { sequence := s.dequeue_pos + 1 + (j : Nat) + 1, storage := some (rest.get j) }
    rw [slotAt_setSlot hwf']
    have harg : s.dequeue_pos + 1 + (j : Nat) = s.dequeue_pos + (1 + (j : Nat)) := by omega
    have hne : ¬ ((s.dequeue_pos + 1 + (j : Nat)) % 2 ^ k = s.dequeue_pos % 2 ^ k) := by
      rw [harg]
      intro hc
      have hc2 : (s.dequeue_pos + (1 + (j : Nat))) % 2 ^ k = (s.dequeue_pos + 0) % 2 ^ k := by
        simpa using hc
      have := add_mod_window_inj (by rw [← hwf.1]; omega) (by rw [← hwf.1]; omega) hc2
      omega
    rw [if_neg hne]
    have hjlt : 1 + (j : Nat) < (v :: rest).length := by simp; omega
    have h4 := hfull ⟨1 + (j : Nat), hjlt⟩
    have hval : (v :: rest).get ⟨1 + (j : Nat), hjlt⟩ = rest.get j := by
      rw [List.get_eq_getElem, List.get_eq_getElem]
      have h1 : 1 + (j : Nat) = (j : Nat) + 1 := by omega
      simp only [h1]
      exact List.getElem_cons_succ _ _ _ _
    rw [hval] at h4
    have harg2 : s.dequeue_pos + (1 + (j : Nat)) = s.dequeue_pos + 1 + (j : Nat) := by omega
    rw [harg2] at h4
    have harg3 : s.dequeue_pos + 1 + (j : Nat) + 1 = s.dequeue_pos + (1 + (j : Nat)) + 1 := by omega
    rw [harg3]
    have harg4 : s.dequeue_pos + (1 + (j : Nat)) + 1 = s.dequeue_pos + 1 + (j : Nat) + 1 := by omega
    rw [harg4]
    exact h4
  · intro j hj
    have hjv : (j : Nat) < s.capacity := j.2
    have hjr : rest.length ≤ (j : Nat) := hj
    show slotAt (setSlot { s with dequeue_pos := s.dequeue_pos + 1 } (s.dequeue_pos &&& s.mask)
        { sequence := s.dequeue_pos + s.capacity, storage := none })
        (s.dequeue_pos + 1 + (j : Nat)) =
      some { sequence := s.dequeue_pos + 1 + (j : Nat), storage := none }
    rw [slotAt_setSlot hwf']
    by_cases hj2 : 1 + (j : Nat) = s.capacity
    · rw [if_pos (by
        rw [show s.dequeue_pos + 1 + (j : Nat) = s.dequeue_pos + 2 ^ k from by
          rw [← hwf.1]; omega]
        simp [Nat.add_mod_right])]
      have hseq : s.dequeue_pos + s.capacity = s.dequeue_pos + 1 + (j : Nat) := by omega
      rw [hseq]
    · have hne : ¬ ((s.dequeue_pos + 1 + (j : Nat)) % 2 ^ k = s.dequeue_pos % 2 ^ k) := by
        intro hc
        have hc2 : (s.dequeue_pos + (1 + (j : Nat))) % 2 ^ k = (s.dequeue_pos + 0) % 2 ^ k := by
          rw [show s.dequeue_pos + (1 + (j : Nat)) = s.dequeue_pos + 1 + (j : Nat) from by omega]
          simpa using hc
        have := add_mod_window_inj (by rw [← hwf.1]; omega) (by rw [← hwf.1]; omega) hc2
        omega
      rw [if_neg hne]
      have h5 := hfree ⟨1 + (j : Nat), by omega⟩ (by simp; omega)
      have harg : s.dequeue_pos + (1 + (j : Nat)) = s.dequeue_pos + 1 + (j : Nat) := by omega
      rw [harg] at h5
      exact h5

end MPMCQueue

namespace MPMCQueue

theorem try_emplace_zero (v : T) (s : State T) : try_emplace v s 0 = none := rfl

theorem try_dequeue_zero (s : State T) : try_dequeue s 0 = none := rfl

theorem try_emplace_ready {T} {s : State T} {node : Slot T}
    (hnode : slotAt s s.enqueue_pos = some node) (hseq : node.sequence = s.enqueue_pos)
    (v : T) (fuel : Nat) :
    try_emplace v s (fuel + 1) =
      some (true, setSlot { s with enqueue_pos := s.enqueue_pos + 1 } (s.enqueue_pos &&& s.mask)
        { sequence := s.enqueue_pos + 1, storage := some v }) := by
  unfold try_emplace
  rw [claimEnq_hit hnode hseq]

theorem try_emplace_fullret {T} {s : State T} {node : Slot T}
    (hnode : slotAt s s.enqueue_pos = some node) (hlt : node.sequence < s.enqueue_pos)
    (v : T) (fuel : Nat) :
    try_emplace v s (fuel + 1) = some (false, s) := by
  unfold try_emplace
  rw [claimEnq_fullret hnode hlt]

theorem try_dequeue_emptyret {T} {s : State T} {node : Slot T}
    (hnode : slotAt s s.dequeue_pos = some node) (hlt : node.sequence < s.dequeue_pos + 1)
    (fuel : Nat) :
    try_dequeue s (fuel + 1) = some (none, s) := by
  unfold try_dequeue
  rw [claimDeq_emptyret hnode hlt]

theorem try_dequeue_out_emptyret {T} {s : State T} {node : Slot T}
    (hnode : slotAt s s.dequeue_pos = some node) (hlt : node.sequence < s.dequeue_pos + 1)
    (fuel : Nat) :
    try_dequeue_out s (fuel + 1) = some ((false, none), s) := by
  unfold try_dequeue_out
  rw [claimDeq_emptyret hnode hlt]

theorem try_dequeue_ready {T} {s : State T} {node : Slot T} {w : T}
    (hnode : slotAt s s.dequeue_pos = some node) (hseq : node.sequence = s.dequeue_pos + 1)
    (hst : node.storage = some w) (fuel : Nat) :
    try_dequeue s (fuel + 1) =
      some (some w, setSlot { s with dequeue_pos := s.dequeue_pos + 1 } (s.dequeue_pos &&& s.mask)
        { sequence := s.dequeue_pos + s.capacity, storage := none }) := by
  have step : try_dequeue s (fuel + 1) =
      (match (slotAt s s.dequeue_pos : Option (Slot T)) with
      | none => none
      | some node2 =>
        match node2.storage with
        | none => none
        | some v2 =>
          some (some v2, setSlot { s with dequeue_pos := s.dequeue_pos + 1 }
            (s.dequeue_pos &&& s.mask)
            { sequence := s.dequeue_pos + s.capacity, storage := none })) := by
    unfold try_dequeue
    rw [claimDeq_hit hnode hseq]
    rfl
  obtain ⟨nseq, nst⟩ := node
  have hst2 : nst = some w := hst
  subst hst2
  rw [step, hnode]

theorem Sat.slot_enq {s : State T} (hs : Sat s) :
    ∃ v, slotAt s s.enqueue_pos = some { sequence := s.enqueue_pos, storage := some v } :=
  hs.2.2.2.2

theorem Sat.slot_deq {s : State T} (hs : Sat s) :
    ∃ v, slotAt s s.dequeue_pos = some { sequence := s.enqueue_pos, storage := some v } := by
  obtain ⟨hc, hm, hl, hle, v, hslot⟩ := hs
  refine ⟨v, ?_⟩
  unfold slotAt at hslot ⊢
  rw [hm] at hslot ⊢
  simpa [Nat.and_zero] using hslot

theorem try_dequeue_sat {s : State T} (hs : Sat s) (fuel : Nat) :
    try_dequeue s fuel = none := by
  obtain ⟨v, hslot⟩ := Sat.slot_deq hs
  have hgt : s.dequeue_pos + 1 < s.enqueue_pos := by
    have := hs.2.2.2.1
    omega
  have hstuck := claimDeq_stuck hslot hgt fuel
  unfold try_dequeue
  rw [hstuck]

theorem Sat.enq_preserved {s : State T} (hs : Sat s) (v : T) :
    Sat (setSlot { s with enqueue_pos := s.enqueue_pos + 1 } (s.enqueue_pos &&& s.mask)
      { sequence := s.enqueue_pos + 1, storage := some v }) := by
  obtain ⟨hc, hm, hl, hle, w, hslot⟩ := hs
  refine ⟨hc, hm, by simpa [setSlot] using hl, ?_, v, ?_⟩
  · show s.dequeue_pos + 2 ≤ s.enqueue_pos + 1
    omega
  · show (s.buffer.set (s.enqueue_pos &&& s.mask)
        { sequence := s.enqueue_pos + 1, storage := some v })[(s.enqueue_pos + 1) &&& s.mask]? =
      some { sequence := s.enqueue_pos + 1, storage := some v }
    rw [hm]
    simp only [Nat.and_zero]
    exact List.getElem?_set_self (by omega)

theorem runM_enq_succ {T} {v : T} {s s2 : State T} {fuel : Nat}
    (h : try_emplace v s fuel = some (true, s2)) (ops : List (MOp T)) :
    runM fuel s (MOp.enq v :: ops) =
      match runM fuel s2 ops with
      | none => none
      | some (t, ins, outs) => some (t, v :: ins, outs) := by
  simp only [runM]
  rw [h]

theorem runM_enq_fail {T} {v : T} {s s2 : State T} {fuel : Nat}
    (h : try_emplace v s fuel = some (false, s2)) (ops : List (MOp T)) :
    runM fuel s (MOp.enq v :: ops) = runM fuel s2 ops := by
  simp only [runM]
  rw [h]

theorem runM_enq_none {T} {v : T} {s : State T} {fuel : Nat}
    (h : try_emplace v s fuel = none) (ops : List (MOp T)) :
    runM fuel s (MOp.enq v :: ops) = none := by
  simp only [runM]
  rw [h]

theorem runM_deq_some {T} {v : T} {s s2 : State T} {fuel : Nat}
    (h : try_dequeue s fuel = some (some v, s2)) (ops : List (MOp T)) :
    runM fuel s (MOp.deq :: ops) =
      match runM fuel s2 ops with
      | none => none
      | some (t, ins, outs) => some (t, ins, v :: outs) := by
  simp only [runM]
  rw [h]

theorem runM_deq_empty {T} {s s2 : State T} {fuel : Nat}
    (h : try_dequeue s fuel = some (none, s2)) (ops : List (MOp T)) :
    runM fuel s (MOp.deq :: ops) = runM fuel s2 ops := by
  simp only [runM]
  rw [h]

theorem runM_deq_none {T} {s : State T} {fuel : Nat}
    (h : try_dequeue s fuel = none) (ops : List (MOp T)) :
    runM fuel s (MOp.deq :: ops) = none := by
  simp only [runM]
  rw [h]

theorem runM_sat {T} {s : State T} (hs : Sat s) :
    ∀ ops fuel t ins outs, runM fuel s ops = some (t, ins, outs) → outs = [] := by
  intro ops
  induction ops generalizing s with
  | nil =>
    intro fuel t ins outs h
    obtain ⟨rfl, rfl, rfl⟩ : s = t ∧ [] = ins ∧ [] = outs := by
      simpa [runM] using h
    rfl
  | cons op ops ih =>
    intro fuel t ins outs h
    cases op with
    | enq v =>
      cases fuel with
      | zero => simp [runM, try_emplace_zero] at h
      | succ fuel2 =>
        obtain ⟨w, hslot⟩ := Sat.slot_enq hs
        have hready := try_emplace_ready hslot rfl v fuel2
        rw [runM_enq_succ hready ops] at h
        cases hr : runM (fuel2 + 1)
            (setSlot { s with enqueue_pos := s.enqueue_pos + 1 } (s.enqueue_pos &&& s.mask)
              { sequence := s.enqueue_pos + 1, storage := some v }) ops with
        | none => rw [hr] at h; exact absurd h (by simp)
        | some r =>
          obtain ⟨t2, ins2, outs2⟩ := r
          rw [hr] at h
          obtain ⟨rfl, rfl, rfl⟩ : t2 = t ∧ v :: ins2 = ins ∧ outs2 = outs := by
            simpa using h
          exact ih (Sat.enq_preserved hs v) _ _ _ _ hr
    | deq =>
      have hd := try_dequeue_sat hs fuel
      rw [runM_deq_none hd ops] at h
      exact absurd h (by simp)

end MPMCQueue

namespace MPMCQueue

theorem runM_clean {T : Type} {k : Nat} :
    ∀ (ops : List (MOp T)) (s : State T) (pending : List T) (fuel : Nat)
      (t : State T) (ins outs : List T),
      Clean k s pending → runM fuel s ops = some (t, ins, outs) →
      ∃ rest, pending ++ ins = outs ++ rest := by
  intro ops
  induction ops with
  | nil =>
    intro s pending fuel t ins outs hc h
    obtain ⟨rfl, rfl, rfl⟩ : s = t ∧ [] = ins ∧ [] = outs := by simpa [runM] using h
    exact ⟨pending, by simp⟩
  | cons op ops ih =>
    intro s pending fuel t ins outs hc h
    cases fuel with
    | zero =>
      cases op with
      | enq v => simp [runM, try_emplace_zero] at h
      | deq => simp [runM, try_dequeue_zero] at h
    | succ fuel2 =>
      cases op with
      | enq v =>
        by_cases hlt : pending.length < s.capacity
        · have hslot := Clean.slot_enq_free hc hlt
          have hready := try_emplace_ready hslot rfl v fuel2
          rw [runM_enq_succ hready ops] at h
          have hc2 := Clean.enq_step hc hlt v
          cases hr : runM (fuel2 + 1)
              (setSlot { s with enqueue_pos := s.enqueue_pos + 1 } (s.enqueue_pos &&& s.mask)
                { sequence := s.enqueue_pos + 1, storage := some v }) ops with
          | none => rw [hr] at h; exact absurd h (by simp)
          | some r =>
            obtain ⟨t2, ins2, outs2⟩ := r
            rw [hr] at h
            obtain ⟨rfl, rfl, rfl⟩ : t2 = t ∧ v :: ins2 = ins ∧ outs2 = outs := by simpa using h
            obtain ⟨rest, hrest⟩ := ih _ _ _ _ _ _ hc2 hr
            refine ⟨rest, ?_⟩
            rw [show pending ++ v :: ins2 = (pending ++ [v]) ++ ins2 from by simp]
            exact hrest
        · have hlen : pending.length = s.capacity := le_antisymm hc.2.2.1 (le_of_not_lt hlt)
          obtain ⟨hlen0, hslot⟩ := Clean.slot_enq_full hc hlen
          by_cases hcap1 : s.capacity = 1
          · have hseq : (⟨s.dequeue_pos + 1, some (pending.get ⟨0, hlen0⟩)⟩ : Slot T).sequence
                = s.enqueue_pos := by
              show s.dequeue_pos + 1 = s.enqueue_pos
              have he := hc.2.1
              omega
            have hready := try_emplace_ready hslot hseq v fuel2
            rw [runM_enq_succ hready ops] at h
            have hsat : Sat (setSlot { s with enqueue_pos := s.enqueue_pos + 1 }
                (s.enqueue_pos &&& s.mask)
                { sequence := s.enqueue_pos + 1, storage := some v }) := by
              refine ⟨hcap1, ?_, ?_, ?_, v, ?_⟩
              · show s.mask = 0
                rw [hc.1.2.1, hcap1]
              · show (s.buffer.set (s.enqueue_pos &&& s.mask)
                    { sequence := s.enqueue_pos + 1, storage := some v }).length = 1
                simp [hc.1.2.2, hcap1]
              · show s.dequeue_pos + 2 ≤ s.enqueue_pos + 1
                have he := hc.2.1
                omega
              · show (s.buffer.set (s.enqueue_pos &&& s.mask)
                    { sequence := s.enqueue_pos + 1, storage := some v })[(s.enqueue_pos + 1) &&&
                      (setSlot { s with enqueue_pos := s.enqueue_pos + 1 }
                        (s.enqueue_pos &&& s.mask)
                        { sequence := s.enqueue_pos + 1, storage := some v }).mask]? =
                  some { sequence := s.enqueue_pos + 1, storage := some v }
                have hm0 : s.mask = 0 := by rw [hc.1.2.1, hcap1]
                rw [show (setSlot { s with enqueue_pos := s.enqueue_pos + 1 }
                    (s.enqueue_pos &&& s.mask)
                    { sequence := s.enqueue_pos + 1, storage := some v }).mask = s.mask from rfl]
                rw [hm0]
                simp only [Nat.and_zero]
                apply List.getElem?_set_self
                have hl := hc.1.2.2
                omega
            cases hr : runM (fuel2 + 1)
                (setSlot { s with enqueue_pos := s.enqueue_pos + 1 } (s.enqueue_pos &&& s.mask)
                  { sequence := s.enqueue_pos + 1, storage := some v }) ops with
            | none => rw [hr] at h; exact absurd h (by simp)
            | some r =>
              obtain ⟨t2, ins2, outs2⟩ := r
              rw [hr] at h
              obtain ⟨rfl, rfl, rfl⟩ : t2 = t ∧ v :: ins2 = ins ∧ outs2 = outs := by
                simpa using h
              have houts : outs2 = [] := runM_sat hsat ops _ _ _ _ hr
              rw [houts]
              exact ⟨pending ++ v :: ins2, by simp⟩
          · have hcap2 : 2 ≤ s.capacity := by
              have := wf_cap_pos hc.1
              omega
            have hltseq : (⟨s.dequeue_pos + 1, some (pending.get ⟨0, hlen0⟩)⟩ : Slot T).sequence
                < s.enqueue_pos := by
              show s.dequeue_pos + 1 < s.enqueue_pos
              have he := hc.2.1
              omega
            have hfail := try_emplace_fullret hslot hltseq v fuel2
            rw [runM_enq_fail hfail ops] at h
            exact ih _ _ _ _ _ _ hc h
      | deq =>
        cases pending with
        | nil =>
          have hslot := hc.2.2.2.2 ⟨0, wf_cap_pos hc.1⟩ (by simp)
          have hslot2 : slotAt s s.dequeue_pos =
              some { sequence := s.dequeue_pos, storage := none } := by
            simpa using hslot
          have hfail := try_dequeue_emptyret hslot2
            (by show s.dequeue_pos < s.dequeue_pos + 1; omega) fuel2
          rw [runM_deq_empty hfail ops] at h
          exact ih _ _ _ _ _ _ hc h
        | cons v rest =>
          have hslot := hc.2.2.2.1 ⟨0, by simp⟩
          have hslot2 : slotAt s s.dequeue_pos =
              some { sequence := s.dequeue_pos + 1, storage := some v } := by
            simpa using hslot
          have hready := try_dequeue_ready hslot2 rfl rfl fuel2
          rw [runM_deq_some hready ops] at h
          have hc2 := Clean.deq_step hc
          cases hr : runM (fuel2 + 1)
              (setSlot { s with dequeue_pos := s.dequeue_pos + 1 } (s.dequeue_pos &&& s.mask)
                { sequence := s.dequeue_pos + s.capacity, storage := none }) ops with
          | none => rw [hr] at h; exact absurd h (by simp)
          | some r =>
            obtain ⟨t2, ins2, outs2⟩ := r
            rw [hr] at h
            obtain ⟨rfl, rfl, rfl⟩ : t2 = t ∧ ins2 = ins ∧ v :: outs2 = outs := by simpa using h
            obtain ⟨rest2, hrest⟩ := ih _ _ _ _ _ _ hc2 hr
            refine ⟨rest2, ?_⟩
            show v :: rest ++ ins2 = v :: outs2 ++ rest2
            rw [List.cons_append, hrest]
            rfl

end MPMCQueue

theorem npot_pow (n : Nat) (h : n ≤ 2 ^ 63) :
    ∃ k, MPMCQueue.next_power_of_2 n = 2 ^ k := by
  rw [mpmc_npot_eq_spec n h]
  unfold specNextPow2
  by_cases h0 : n = 0
  · rw [if_pos h0]; exact ⟨0, rfl⟩
  · rw [if_neg h0]; exact ⟨Nat.clog 2 n, rfl⟩

namespace MPMCQueue

theorem clean_init (T : Type) (n k : Nat) (hcap : next_power_of_2 n = 2 ^ k) :
    Clean k (init T n) [] := by
  refine ⟨⟨hcap, rfl, ?_⟩, rfl, Nat.zero_le _, ?_, ?_⟩
  · show ((List.range (next_power_of_2 n)).map
      (fun i => ({ sequence := i, storage := none } : Slot T))).length = next_power_of_2 n
    simp
  · intro j
    exact absurd j.2 (Nat.not_lt_zero _)
  · intro j hj
    have hj2 : (j : Nat) < 2 ^ k := by
      have := j.2
      show (j : Nat) < 2 ^ k
      rw [← hcap]
      exact this
    show ((List.range (next_power_of_2 n)).map
        (fun i => ({ sequence := i, storage := none } : Slot T)))[(0 + (j : Nat)) &&&
          (next_power_of_2 n - 1)]? =
      some { sequence := 0 + (j : Nat), storage := none }
    rw [hcap, and_two_pow_sub_one, Nat.zero_add, Nat.mod_eq_of_lt hj2]
    rw [List.getElem?_map, List.getElem?_range hj2]
    rfl

theorem runM_nilbuf {T : Type} {s : State T} (hb : s.buffer = []) :
    ∀ ops fuel t ins outs, runM fuel s ops = some (t, ins, outs) → outs = [] ∧ ins = [] := by
  intro ops
  cases ops with
  | nil =>
    intro fuel t ins outs h
    obtain ⟨rfl, rfl, rfl⟩ : s = t ∧ [] = ins ∧ [] = outs := by simpa [runM] using h
    exact ⟨rfl, rfl⟩
  | cons op ops =>
    intro fuel t ins outs h
    exfalso
    cases fuel with
    | zero =>
      cases op with
      | enq v => simp [runM, try_emplace_zero] at h
      | deq => simp [runM, try_dequeue_zero] at h
    | succ fuel2 =>
      have hnone : ∀ p : Nat, s.buffer[p]? = (none : Option (Slot T)) := by
        intro p
        rw [hb]
        simp
      cases op with
      | enq v =>
        have he : try_emplace v s (fuel2 + 1) = none := by
          unfold try_emplace
          rw [claimEnq_succ, hnone (s.enqueue_pos &&& s.mask)]
        rw [runM_enq_none he ops] at h
        simp at h
      | deq =>
        have hd : try_dequeue s (fuel2 + 1) = none := by
          unfold try_dequeue
          rw [claimDeq_succ, hnone (s.dequeue_pos &&& s.mask)]
        rw [runM_deq_none hd ops] at h
        simp at h

theorem mpmc_fifo_aux {T : Type} (n : Nat) (hn : n < 2 ^ 64)
    (ops : List (MOp T)) (fuel : Nat) (t : State T) (ins outs : List T)
    (h : runM fuel (init T n) ops = some (t, ins, outs)) :
    ∃ rest, ins = outs ++ rest := by
  by_cases hn63 : n ≤ 2 ^ 63
  · obtain ⟨k, hk⟩ := npot_pow n hn63
    have hc := clean_init T n k hk
    obtain ⟨rest, hrest⟩ := runM_clean ops _ [] fuel t ins outs hc h
    exact ⟨rest, by simpa using hrest⟩
  · have hcap0 : next_power_of_2 n = 0 := mpmc_npot_overflow n (by omega) (by omega)
    have hb : (init T n).buffer = [] := by
      show (List.range (next_power_of_2 n)).map
        (fun i => ({ sequence := i, storage := none } : Slot T)) = []
      rw [hcap0]
      rfl
    obtain ⟨houts, hins⟩ := runM_nilbuf hb ops fuel t ins outs h
    exact ⟨[], by rw [houts, hins]; rfl⟩

end MPMCQueue

namespace RingBuffer

theorem CleanR_set_write {T : Type} {k : Nat} {s : State T} {pending : List T}
    (hc : Clean k s pending) (hlt : pending.length < s.capacity) (v : T) (cr : Nat)
    (hcrle : cr ≤ s.read_pos) :
    Clean k { capacity := s.capacity, mask := s.mask, write_pos := s.write_pos + 1,
              cached_read_pos := cr, read_pos := s.read_pos,
              cached_write_pos := s.cached_write_pos,
              storage := s.storage.set (s.write_pos &&& s.mask) (some v) } (pending ++ [v]) := by
  obtain ⟨hcap, hmask, hlens, hw, hple, hcr2, hcw, hslots⟩ := hc
  have hidxlt : s.write_pos &&& s.mask < s.storage.length := by
    rw [hmask, hcap, and_two_pow_sub_one, hlens, hcap]
    exact Nat.mod_lt _ (by rw [← hcap]; omega)
  refine ⟨hcap, hmask, ?_, ?_, ?_, ?_, ?_, ?_⟩
  · show (s.storage.set (s.write_pos &&& s.mask) (some v)).length = s.capacity
    rw [List.length_set, hlens]
  · show s.write_pos + 1 = s.read_pos + (pending ++ [v]).length
    simp only [List.length_append, List.length_cons, List.length_nil]
    omega
  · show (pending ++ [v]).length ≤ s.capacity
    simp only [List.length_append, List.length_cons, List.length_nil]
    omega
  · show cr ≤ s.read_pos
    exact hcrle
  · show s.cached_write_pos ≤ s.write_pos + 1
    omega
  · intro j
    have hj : (j : Nat) < pending.length + 1 := by
      have := j.2
      simpa using this
    show (s.storage.set (s.write_pos &&& s.mask) (some v))[(s.read_pos + (j : Nat)) &&& s.mask]? =
      some (some ((pending ++ [v]).get j))
    by_cases hj2 : (j : Nat) = pending.length
    · have harg : s.read_pos + (j : Nat) = s.write_pos := by omega
      rw [harg, List.getElem?_set_self hidxlt]
      have hval : (pending ++ [v]).get j = v := by
        rw [List.get_eq_getElem]
        have hjv : (j : Nat) = pending.length := hj2
        simp only [hjv]
        exact List.getElem_concat_length pending v pending.length rfl (by simp)
      rw [hval]
    · have hne : (s.read_pos + (j : Nat)) &&& s.mask ≠ s.write_pos &&& s.mask := by
        rw [hmask, hcap, and_two_pow_sub_one, and_two_pow_sub_one, hw]
        intro hceq
        exact hj2 (add_mod_window_inj (by rw [← hcap]; omega) (by rw [← hcap]; omega) hceq)
      rw [List.getElem?_set_ne (fun hx => hne hx.symm)]
      have hjlt : (j : Nat) < pending.length := by omega
      have h5 := hslots ⟨(j : Nat), hjlt⟩
      have hval : (pending ++ [v]).get j = pending.get ⟨(j : Nat), hjlt⟩ := by
        rw [List.get_eq_getElem, List.get_eq_getElem]
        exact List.getElem_append_left hjlt
      rw [hval]
      exact h5

theorem CleanR_set_read {T : Type} {k : Nat} {s : State T} {v : T} {rest : List T}
    (hc : Clean k s (v :: rest)) (cw : Nat) (hcwle : cw ≤ s.write_pos) :
    Clean k { capacity := s.capacity, mask := s.mask, write_pos := s.write_pos,
              cached_read_pos := s.cached_read_pos, read_pos := s.read_pos + 1,
              cached_write_pos := cw,
              storage := s.storage.set (s.read_pos &&& s.mask) none } rest := by
  obtain ⟨hcap, hmask, hlens, hw, hple, hcr, hcw2, hslots⟩ := hc
  have hcappos : 0 < s.capacity := by
    have := hple
    simp only [List.length_cons] at this
    omega
  refine ⟨hcap, hmask, ?_, ?_, ?_, ?_, ?_, ?_⟩
  · show (s.storage.set (s.read_pos &&& s.mask) none).length = s.capacity
    rw [List.length_set, hlens]
  · show s.write_pos = s.read_pos + 1 + rest.length
    simp only [List.length_cons] at hw
    omega
  · show rest.length ≤ s.capacity
    simp only [List.length_cons] at hple
    omega
  · show s.cached_read_pos ≤ s.read_pos + 1
    omega
  · show cw ≤ s.write_pos
    exact hcwle
  · intro j
    have hj : (j : Nat) < rest.length := j.2
    have hlenc : rest.length + 1 ≤ s.capacity := by
      simpa using hple
    show (s.storage.set (s.read_pos &&& s.mask) none)[(s.read_pos + 1 + (j : Nat)) &&& s.mask]? =
      some (some (rest.get j))
    have hne : (s.read_pos + 1 + (j : Nat)) &&& s.mask ≠ s.read_pos &&& s.mask := by
      rw [hmask, hcap, and_two_pow_sub_one, and_two_pow_sub_one]
      intro hx
      have hx2 : (s.read_pos + (1 + (j : Nat))) % 2 ^ k = (s.read_pos + 0) % 2 ^ k := by
        rw [show s.read_pos + (1 + (j : Nat)) = s.read_pos + 1 + (j : Nat) from by omega]
        simpa using hx
      have := add_mod_window_inj (by rw [← hcap]; omega) (by rw [← hcap]; omega) hx2
      omega
    rw [List.getElem?_set_ne (fun hx => hne hx.symm)]
    have hjlt : 1 + (j : Nat) < (v :: rest).length := by
      simp only [List.length_cons]
      omega
    have h5 := hslots ⟨1 + (j : Nat), hjlt⟩
    have hval : (v :: rest).get ⟨1 + (j : Nat), hjlt⟩ = rest.get j := by
      rw [List.get_eq_getElem, List.get_eq_getElem]
      have h1 : 1 + (j : Nat) = (j : Nat) + 1 := by omega
      simp only [h1]
      exact List.getElem_cons_succ _ _ _ _
    rw [hval] at h5
    rw [show s.read_pos + 1 + (j : Nat) = s.read_pos + (1 + (j : Nat)) from by omega]
    exact h5

theorem try_write_clean_succ {T : Type} {k : Nat} {s : State T} {pending : List T}
    (hc : Clean k s pending) (hlt : pending.length < s.capacity) (v : T) :
    ∃ cr2, cr2 ≤ s.read_pos ∧
      try_write v s = (true,
        { s with
            cached_read_pos := cr2,
            storage := s.storage.set (s.write_pos &&& s.mask) (some v),
            write_pos := s.write_pos + 1 }) ∧
      Clean k
        ({ s with
            cached_read_pos := cr2,
            storage := s.storage.set (s.write_pos &&& s.mask) (some v),
            write_pos := s.write_pos + 1 }) (pending ++ [v]) := by
  have hw := hc.2.2.2.1
  have hcr := hc.2.2.2.2.2.1
  by_cases h1 : s.capacity ≤ s.write_pos - s.cached_read_pos
  · have h2 : ¬ (s.capacity ≤ s.write_pos - s.read_pos) := by omega
    refine ⟨s.read_pos, le_refl _, ?_, ?_⟩
    · simp only [try_write]
      rw [if_pos h1]
      simp only []
      rw [if_neg h2]
    · exact CleanR_set_write hc hlt v s.read_pos (le_refl _)
  · refine ⟨s.cached_read_pos, hcr, ?_, ?_⟩
    · simp only [try_write]
      rw [if_neg h1]
      rw [if_neg h1]
    · exact CleanR_set_write hc hlt v s.cached_read_pos hcr

theorem try_write_clean_full {T : Type} {k : Nat} {s : State T} {pending : List T}
    (hc : Clean k s pending) (hlen : pending.length = s.capacity) (v : T) :
    try_write v s = (false, { s with cached_read_pos := s.read_pos }) ∧
      Clean k ({ s with cached_read_pos := s.read_pos }) pending := by
  obtain ⟨hcap, hmask, hlens, hw, hple, hcr, hcw, hslots⟩ := hc
  constructor
  · have h1 : s.capacity ≤ s.write_pos - s.cached_read_pos := by omega
    have h2 : s.capacity ≤ s.write_pos - s.read_pos := by omega
    simp only [try_write]
    rw [if_pos h1]
    simp only []
    rw [if_pos h2]
  · exact ⟨hcap, hmask, hlens, hw, hple, le_refl _, hcw, hslots⟩

theorem try_read_clean_empty {T : Type} {k : Nat} {s : State T}
    (hc : Clean k s []) :
    try_read s = some (none, { s with cached_write_pos := s.write_pos }) ∧
      Clean k ({ s with cached_write_pos := s.write_pos }) [] := by
  obtain ⟨hcap, hmask, hlens, hw, hple, hcr, hcw, hslots⟩ := hc
  have hwr : s.write_pos = s.read_pos := by simpa using hw
  constructor
  · have h1 : s.cached_write_pos ≤ s.read_pos := by omega
    have h2 : s.write_pos ≤ s.read_pos := by omega
    simp only [try_read]
    rw [if_pos h1]
    simp only []
    rw [if_pos h2]
  · exact ⟨hcap, hmask, hlens, hw, hple, hcr, le_refl _, hslots⟩

theorem try_read_clean_cons {T : Type} {k : Nat} {s : State T} {v : T} {rest : List T}
    (hc : Clean k s (v :: rest)) :
    ∃ cw2, cw2 ≤ s.write_pos ∧
      try_read s = some (some v,
        { s with
            cached_write_pos := cw2,
            storage := s.storage.set (s.read_pos &&& s.mask) none,
            read_pos := s.read_pos + 1 }) ∧
      Clean k
        ({ s with
            cached_write_pos := cw2,
            storage := s.storage.set (s.read_pos &&& s.mask) none,
            read_pos := s.read_pos + 1 }) rest := by
  have hw := hc.2.2.2.1
  have hcw := hc.2.2.2.2.2.2.1
  have hwgt : s.read_pos < s.write_pos := by
    simp only [List.length_cons] at hw
    omega
  have hslot0 := hc.2.2.2.2.2.2.2 ⟨0, by simp⟩
  have hslot0' : s.storage[s.read_pos &&& s.mask]? = some (some v) := by
    simpa using hslot0
  by_cases h1 : s.cached_write_pos ≤ s.read_pos
  · refine ⟨s.write_pos, le_refl _, ?_, ?_⟩
    · simp only [try_read]
      rw [if_pos h1]
      simp only []
      rw [if_neg (by show ¬ (s.write_pos ≤ s.read_pos); omega)]
      rw [hslot0']
    · exact CleanR_set_read hc s.write_pos (le_refl _)
  · refine ⟨s.cached_write_pos, hcw, ?_, ?_⟩
    · simp only [try_read]
      rw [if_neg h1]
      rw [if_neg h1]
      rw [hslot0']
    · exact CleanR_set_read hc s.cached_write_pos hcw

end RingBuffer

namespace RingBuffer

theorem runR_wr_succ {T : Type} {v : T} {s s2 : State T}
    (h : try_write v s = (true, s2)) (ops : List (ROp T)) :
    runR s (ROp.wr v :: ops) =
      match runR s2 ops with
      | none => none
      | some (t, ins, outs) => some (t, v :: ins, outs) := by
  simp only [runR]
  rw [h]

theorem runR_wr_fail {T : Type} {v : T} {s s2 : State T}
    (h : try_write v s = (false, s2)) (ops : List (ROp T)) :
    runR s (ROp.wr v :: ops) = runR s2 ops := by
  simp only [runR]
  rw [h]

theorem runR_rd_some {T : Type} {v : T} {s s2 : State T}
    (h : try_read s = some (some v, s2)) (ops : List (ROp T)) :
    runR s (ROp.rd :: ops) =
      match runR s2 ops with
      | none => none
      | some (t, ins, outs) => some (t, ins, v :: outs) := by
  simp only [runR]
  rw [h]

theorem runR_rd_empty {T : Type} {s s2 : State T}
    (h : try_read s = some (none, s2)) (ops : List (ROp T)) :
    runR s (ROp.rd :: ops) = runR s2 ops := by
  simp only [runR]
  rw [h]

theorem runR_rd_none {T : Type} {s : State T}
    (h : try_read s = none) (ops : List (ROp T)) :
    runR s (ROp.rd :: ops) = none := by
  simp only [runR]
  rw [h]

theorem runR_clean {T : Type} {k : Nat} :
    ∀ (ops : List (ROp T)) (s : State T) (pending : List T)
      (t : State T) (ins outs : List T),
      Clean k s pending → runR s ops = some (t, ins, outs) →
      ∃ rest, pending ++ ins = outs ++ rest := by
  intro ops
  induction ops with
  | nil =>
    intro s pending t ins outs hc h
    obtain ⟨rfl, rfl, rfl⟩ : s = t ∧ [] = ins ∧ [] = outs := by simpa [runR] using h
    exact ⟨pending, by simp⟩
  | cons op ops ih =>
    intro s pending t ins outs hc h
    cases op with
    | wr v =>
      by_cases hlt : pending.length < s.capacity
      · obtain ⟨cr2, hcr2, heq, hc2⟩ := try_write_clean_succ hc hlt v
        rw [runR_wr_succ heq ops] at h
        cases hr : runR ({ s with
            cached_read_pos := cr2,
            storage := s.storage.set (s.write_pos &&& s.mask) (some v),
            write_pos := s.write_pos + 1 }) ops with
        | none => rw [hr] at h; exact absurd h (by simp)
        | some r =>
          obtain ⟨t2, ins2, outs2⟩ := r
          rw [hr] at h
          obtain ⟨rfl, rfl, rfl⟩ : t2 = t ∧ v :: ins2 = ins ∧ outs2 = outs := by simpa using h
          obtain ⟨rest, hrest⟩ := ih _ _ _ _ _ hc2 hr
          refine ⟨rest, ?_⟩
          rw [show pending ++ v :: ins2 = (pending ++ [v]) ++ ins2 from by simp]
          exact hrest
      · have hlen : pending.length = s.capacity := le_antisymm hc.2.2.2.2.1 (le_of_not_lt hlt)
        obtain ⟨heq, hc2⟩ := try_write_clean_full hc hlen v
        rw [runR_wr_fail heq ops] at h
        exact ih _ _ _ _ _ hc2 h
    | rd =>
      cases pending with
      | nil =>
        obtain ⟨heq, hc2⟩ := try_read_clean_empty hc
        rw [runR_rd_empty heq ops] at h
        exact ih _ _ _ _ _ hc2 h
      | cons v rest =>
        obtain ⟨cw2, hcw2, heq, hc2⟩ := try_read_clean_cons hc
        rw [runR_rd_some heq ops] at h
        cases hr : runR ({ s with
            cached_write_pos := cw2,
            storage := s.storage.set (s.read_pos &&& s.mask) none,
            read_pos := s.read_pos + 1 }) ops with
        | none => rw [hr] at h; exact absurd h (by simp)
        | some r =>
          obtain ⟨t2, ins2, outs2⟩ := r
          rw [hr] at h
          obtain ⟨rfl, rfl, rfl⟩ : t2 = t ∧ ins2 = ins ∧ v :: outs2 = outs := by simpa using h
          obtain ⟨rest2, hrest⟩ := ih _ _ _ _ _ hc2 hr
          refine ⟨rest2, ?_⟩
          show v :: rest ++ ins2 = v :: outs2 ++ rest2
          rw [List.cons_append, hrest]
          rfl

theorem runR_cap0 {T : Type} {s : State T} (hcap : s.capacity = 0)
    (hwr : s.write_pos = s.read_pos) (hcw : s.cached_write_pos ≤ s.read_pos) :
    ∀ ops t ins outs, runR s ops = some (t, ins, outs) → outs = [] ∧ ins = [] := by
  intro ops
  induction ops generalizing s with
  | nil =>
    intro t ins outs h
    obtain ⟨rfl, rfl, rfl⟩ : s = t ∧ [] = ins ∧ [] = outs := by simpa [runR] using h
    exact ⟨rfl, rfl⟩
  | cons op ops ih =>
    intro t ins outs h
    cases op with
    | wr v =>
      have heq : try_write v s = (false, { s with cached_read_pos := s.read_pos }) := by
        have h1 : s.capacity ≤ s.write_pos - s.cached_read_pos := by omega
        have h2 : s.capacity ≤ s.write_pos - s.read_pos := by omega
        simp only [try_write]
        rw [if_pos h1]
        simp only []
        rw [if_pos h2]
      rw [runR_wr_fail heq ops] at h
      refine @ih _ ?_ ?_ ?_ _ _ _ h
      · show s.capacity = 0
        exact hcap
      · show s.write_pos = s.read_pos
        exact hwr
      · show s.cached_write_pos ≤ s.read_pos
        exact hcw
    | rd =>
      have heq : try_read s = some (none, { s with cached_write_pos := s.write_pos }) := by
        have h2 : s.write_pos ≤ s.read_pos := by omega
        simp only [try_read]
        rw [if_pos hcw]
        simp only []
        rw [if_pos h2]
      rw [runR_rd_empty heq ops] at h
      refine @ih _ ?_ ?_ ?_ _ _ _ h
      · show s.capacity = 0
        exact hcap
      · show s.write_pos = s.read_pos
        exact hwr
      · show s.write_pos ≤ s.read_pos
        omega

theorem clean_initR (T : Type) (n k : Nat) (hcap : next_power_of_2 n = 2 ^ k) :
    Clean k (init T n) [] := by
  refine ⟨hcap, rfl, ?_, rfl, Nat.zero_le _, Nat.le_refl _, Nat.le_refl _, ?_⟩
  · show (List.replicate (next_power_of_2 n) (none : Option T)).length = next_power_of_2 n
    simp
  · intro j
    exact absurd j.2 (Nat.not_lt_zero _)

theorem rb_fifo_aux {T : Type} (n : Nat) (hn : n < 2 ^ 64)
    (ops : List (ROp T)) (t : State T) (ins outs : List T)
    (h : runR (init T n) ops = some (t, ins, outs)) :
    ∃ rest, ins = outs ++ rest := by
  by_cases hn63 : n ≤ 2 ^ 63
  · obtain ⟨k, hk⟩ := npot_pow n hn63
    have hk2 : next_power_of_2 n = 2 ^ k := by
      rw [rb_npot_eq_mpmc]
      exact hk
    have hc := clean_initR T n k hk2
    obtain ⟨rest, hrest⟩ := runR_clean ops _ [] t ins outs hc h
    exact ⟨rest, by simpa using hrest⟩
  · have hcap0 : next_power_of_2 n = 0 := by
      rw [rb_npot_eq_mpmc]
      exact mpmc_npot_overflow n (by omega) (by omega)
    have hc0 : (init T n).capacity = 0 := hcap0
    obtain ⟨houts, hins⟩ := runR_cap0 hc0 rfl (Nat.le_refl _) ops t ins outs h
    exact ⟨[], by rw [houts, hins]; rfl⟩

end RingBuffer

theorem countP_eq_range {α : Type} (l : List α) (p : α → Bool) (junk : α) :
    l.countP p = (List.range l.length).countP (fun i => p (l.getD i junk)) := by
  induction l with
  | nil => simp
  | cons a t ih =>
    rw [List.countP_cons, List.length_cons, List.range_succ_eq_map, List.countP_cons,
      List.countP_map]
    simp only [List.getD_cons_zero, List.getD_cons_succ, Function.comp]
    rw [ih]
    rfl

namespace MPMCQueue

theorem clean_resident {T : Type} {k : Nat} {s : State T} {pending : List T}
    (hc : Clean k s pending) : resident s = pending.length := by
  obtain ⟨hwf, hepos, hlen, hfull, hfree⟩ := hc
  have hcap := hwf.1
  have hmask := hwf.2.1
  have hlens := hwf.2.2
  have hcappos : 0 < s.capacity := wf_cap_pos hwf
  unfold resident
  rw [countP_eq_range _ _ { sequence := 0, storage := none }, hlens]
  have hg : ∀ x ∈ List.range s.capacity, ∀ y ∈ List.range s.capacity,
      (s.dequeue_pos + x) % s.capacity = (s.dequeue_pos + y) % s.capacity → x = y := by
    intro x hx y hy hxy
    rw [List.mem_range] at hx hy
    exact add_mod_window_inj hx hy hxy
  have hmem : ∀ j ∈ List.range s.capacity,
      (s.dequeue_pos + j) % s.capacity ∈ List.range s.capacity := by
    intro j hj
    rw [List.mem_range]
    exact Nat.mod_lt _ hcappos
  have hperm : List.Perm ((List.range s.capacity).map
      (fun j => (s.dequeue_pos + j) % s.capacity)) (List.range s.capacity) := by
    apply List.perm_of_nodup_nodup_toFinset_eq
    · exact (List.nodup_range _).map_on hg
    · exact List.nodup_range _
    · apply Finset.eq_of_subset_of_card_le
      · intro x hx
        rw [List.mem_toFinset, List.mem_map] at hx
        obtain ⟨j, hj, rfl⟩ := hx
        rw [List.mem_toFinset]
        exact hmem j hj
      · rw [List.toFinset_card_of_nodup ((List.nodup_range _).map_on hg),
          List.toFinset_card_of_nodup (List.nodup_range _)]
        simp
  have hstep1 : (List.range s.capacity).countP
      (fun i => (s.buffer.getD i { sequence := 0, storage := none }).storage.isSome) =
    (List.range s.capacity).countP
      (fun j => ((s.buffer.getD ((s.dequeue_pos + j) % s.capacity)
        { sequence := 0, storage := none }).storage.isSome)) := by
    rw [← List.Perm.countP_eq _ hperm, List.countP_map]
    rfl
  rw [hstep1]
  have hpt : ∀ j ∈ List.range s.capacity,
      ((s.buffer.getD ((s.dequeue_pos + j) % s.capacity)
        { sequence := 0, storage := none }).storage.isSome) = decide (j < pending.length) := by
    intro j hj
    rw [List.mem_range] at hj
    have hidx : (s.dequeue_pos + j) % s.capacity < s.buffer.length := by
      rw [hlens]
      exact Nat.mod_lt _ hcappos
    have hgd : s.buffer.getD ((s.dequeue_pos + j) % s.capacity)
        { sequence := 0, storage := none } =
        s.buffer.get ⟨(s.dequeue_pos + j) % s.capacity, hidx⟩ :=
      List.getD_eq_getElem _ _ hidx
    have hslot : slotAt s (s.dequeue_pos + j) =
        s.buffer[(s.dequeue_pos + j) % s.capacity]? := by
      unfold slotAt
      rw [hmask, hcap, and_two_pow_sub_one]
    by_cases hjl : j < pending.length
    · have h4 := hfull ⟨j, hjl⟩
      rw [hslot] at h4
      have hget : s.buffer.get ⟨(s.dequeue_pos + j) % s.capacity, hidx⟩ =
          { sequence := s.dequeue_pos + j + 1, storage := some (pending.get ⟨j, hjl⟩) } := by
        have h6 := List.getElem?_eq_getElem hidx
        rw [h6] at h4
        exact Option.some_inj.1 h4
      rw [hgd, hget]
      simp [hjl]
    · have h5 := hfree ⟨j, hj⟩ (by show pending.length ≤ j; omega)
      rw [hslot] at h5
      have hget : s.buffer.get ⟨(s.dequeue_pos + j) % s.capacity, hidx⟩ =
          { sequence := s.dequeue_pos + j, storage := none } := by
        have h6 := List.getElem?_eq_getElem hidx
        rw [h6] at h5
        exact Option.some_inj.1 h5
      rw [hgd, hget]
      simp [hjl]
  rw [List.countP_congr (fun x hx => by rw [hpt x hx])]
  have hsplit : s.capacity = pending.length + (s.capacity - pending.length) := by omega
  rw [hsplit, List.range_add, List.countP_append, List.countP_map]
  have h1 : (List.range pending.length).countP (fun j => decide (j < pending.length)) =
      pending.length := by
    have := List.countP_eq_length
      (p := fun j => decide (j < pending.length)) (l := List.range pending.length)
    rw [this.2]
    · exact List.length_range _
    · intro a ha
      rw [List.mem_range] at ha
      simpa using ha
  have h2 : (List.range (s.capacity - pending.length)).countP
      ((fun j => decide (j < pending.length)) ∘ (fun x => pending.length + x)) = 0 := by
    rw [List.countP_eq_zero]
    intro a ha
    simp [Function.comp]
  rw [h1, h2]
  omega

end MPMCQueue

namespace MPMCQueue

theorem claimEnq_spec {T : Type} {s : State T} :
    ∀ {fuel p pos : Nat} {s1 : State T}, claimEnq s p fuel = some (some (pos, s1)) →
      pos = s.enqueue_pos ∧ s1 = { s with enqueue_pos := pos + 1 } ∧
      ∃ nd, s.buffer[pos &&& s.mask]? = some nd ∧ nd.sequence = pos := by
  intro fuel
  induction fuel with
  | zero =>
    intro p pos s1 h
    rw [claimEnq_zero] at h
    simp at h
  | succ fuel ih =>
    intro p pos s1 h
    rw [claimEnq_succ] at h
    cases hnode : s.buffer[p &&& s.mask]? with
    | none => rw [hnode] at h; simp at h
    | some node =>
      have hstep : (match s.buffer[p &&& s.mask]? with
          | none => (none : Option (Option (Nat × State T)))
          | some node =>
            if (node.sequence : Int) - (p : Int) = 0 then
              if s.enqueue_pos = p then some (some (p, { s with enqueue_pos := p + 1 }))
              else claimEnq s s.enqueue_pos fuel
            else if (node.sequence : Int) - (p : Int) < 0 then some none
            else claimEnq s s.enqueue_pos fuel) =
          (if (node.sequence : Int) - (p : Int) = 0 then
            if s.enqueue_pos = p then some (some (p, { s with enqueue_pos := p + 1 }))
            else claimEnq s s.enqueue_pos fuel
          else if (node.sequence : Int) - (p : Int) < 0 then some none
          else claimEnq s s.enqueue_pos fuel) := by
        rw [hnode]
      rw [hstep] at h
      by_cases hd0 : (node.sequence : Int) - (p : Int) = 0
      · rw [if_pos hd0] at h
        by_cases hcas : s.enqueue_pos = p
        · rw [if_pos hcas] at h
          obtain ⟨h1, h2⟩ : p = pos ∧ { s with enqueue_pos := p + 1 } = s1 := by simpa using h
          subst h1
          subst h2
          refine ⟨hcas.symm, rfl, node, hnode, by omega⟩
        · rw [if_neg hcas] at h
          exact ih h
      · rw [if_neg hd0] at h
        by_cases hlt : (node.sequence : Int) - (p : Int) < 0
        · rw [if_pos hlt] at h
          simp at h
        · rw [if_neg hlt] at h
          exact ih h

theorem claimDeq_spec {T : Type} {s : State T} :
    ∀ {fuel p pos : Nat} {s1 : State T}, claimDeq s p fuel = some (some (pos, s1)) →
      pos = s.dequeue_pos ∧ s1 = { s with dequeue_pos := pos + 1 } ∧
      ∃ nd, s.buffer[pos &&& s.mask]? = some nd ∧ nd.sequence = pos + 1 := by
  intro fuel
  induction fuel with
  | zero =>
    intro p pos s1 h
    rw [claimDeq_zero] at h
    simp at h
  | succ fuel ih =>
    intro p pos s1 h
    rw [claimDeq_succ] at h
    cases hnode : s.buffer[p &&& s.mask]? with
    | none => rw [hnode] at h; simp at h
    | some node =>
      have hstep : (match s.buffer[p &&& s.mask]? with
          | none => (none : Option (Option (Nat × State T)))
          | some node =>
            if (node.sequence : Int) - ((p : Int) + 1) = 0 then
              if s.dequeue_pos = p then some (some (p, { s with dequeue_pos := p + 1 }))
              else claimDeq s s.dequeue_pos fuel
            else if (node.sequence : Int) - ((p : Int) + 1) < 0 then some none
            else claimDeq s s.dequeue_pos fuel) =
          (if (node.sequence : Int) - ((p : Int) + 1) = 0 then
            if s.dequeue_pos = p then some (some (p, { s with dequeue_pos := p + 1 }))
            else claimDeq s s.dequeue_pos fuel
          else if (node.sequence : Int) - ((p : Int) + 1) < 0 then some none
          else claimDeq s s.dequeue_pos fuel) := by
        rw [hnode]
      rw [hstep] at h
      by_cases hd0 : (node.sequence : Int) - ((p : Int) + 1) = 0
      · rw [if_pos hd0] at h
        by_cases hcas : s.dequeue_pos = p
        · rw [if_pos hcas] at h
          obtain ⟨h1, h2⟩ : p = pos ∧ { s with dequeue_pos := p + 1 } = s1 := by simpa using h
          subst h1
          subst h2
          refine ⟨hcas.symm, rfl, node, hnode, by omega⟩
        · rw [if_neg hcas] at h
          exact ih h
      · rw [if_neg hd0] at h
        by_cases hlt : (node.sequence : Int) - ((p : Int) + 1) < 0
        · rw [if_pos hlt] at h
          simp at h
        · rw [if_neg hlt] at h
          exact ih h

theorem try_emplace_mono {T : Type} {s : State T} {v : T} {fuel : Nat} {b : Bool} {t : State T}
    (h : try_emplace v s fuel = some (b, t)) :
    s.enqueue_pos ≤ t.enqueue_pos ∧ s.dequeue_pos = t.dequeue_pos := by
  unfold try_emplace at h
  cases hcl : claimEnq s s.enqueue_pos fuel with
  | none => rw [hcl] at h; simp at h
  | some r =>
    cases r with
    | none =>
      rw [hcl] at h
      obtain ⟨h1, h2⟩ : false = b ∧ s = t := by simpa using h
      subst h2
      exact ⟨le_refl _, rfl⟩
    | some pr =>
      obtain ⟨pos, s1⟩ := pr
      rw [hcl] at h
      obtain ⟨h1, h2⟩ : true = b ∧
          setSlot s1 (pos &&& s1.mask) { sequence := pos + 1, storage := some v } = t := by
        simpa using h
      obtain ⟨hp, hs1, _⟩ := claimEnq_spec hcl
      subst h2
      subst hs1
      constructor
      · show s.enqueue_pos ≤ pos + 1
        omega
      · rfl

theorem try_emplace_exc_mono {T E : Type} {s : State T} {mk : Except E T} {fuel : Nat}
    {r : Except (E × State T) (Bool × State T)}
    (h : try_emplace_exc mk s fuel = some r) :
    ∀ t, (r = Except.ok (true, t) ∨ r = Except.ok (false, t) ∨ (∃ e, r = Except.error (e, t))) →
      s.enqueue_pos ≤ t.enqueue_pos ∧ s.dequeue_pos = t.dequeue_pos := by
  unfold try_emplace_exc at h
  cases hcl : claimEnq s s.enqueue_pos fuel with
  | none => rw [hcl] at h; simp at h
  | some r2 =>
    cases r2 with
    | none =>
      rw [hcl] at h
      have h2 : r = Except.ok (false, s) := by simpa using h.symm
      subst h2
      intro t ht
      rcases ht with ht | ht | ⟨e, ht⟩
      · simp at ht
      · have h3 : s = t := by simpa using ht
        subst h3
        exact ⟨le_refl _, rfl⟩
      · simp at ht
    | some pr =>
      obtain ⟨pos, s1⟩ := pr
      rw [hcl] at h
      obtain ⟨hp, hs1, _⟩ := claimEnq_spec hcl
      cases mk with
      | error e =>
        have h2 : r = Except.error (e, setSlotSeq s1 (pos &&& s1.mask) (pos + s1.capacity)) := by
          simpa using h.symm
        subst h2
        intro t ht
        rcases ht with ht | ht | ⟨e2, ht⟩
        · simp at ht
        · simp at ht
        · obtain ⟨h3, h4⟩ : e = e2 ∧ setSlotSeq s1 (pos &&& s1.mask) (pos + s1.capacity) = t := by
            simpa using ht
          subst h4
          subst hs1
          constructor
          · show s.enqueue_pos ≤ pos + 1
            omega
          · rfl
      | ok v =>
        have h2 : r = Except.ok (true,
            setSlot s1 (pos &&& s1.mask) { sequence := pos + 1, storage := some v }) := by
          simpa using h.symm
        subst h2
        intro t ht
        rcases ht with ht | ht | ⟨e2, ht⟩
        · have h4 : setSlot s1 (pos &&& s1.mask)
              { sequence := pos + 1, storage := some v } = t := by
            simpa using ht
          subst h4
          subst hs1
          constructor
          · show s.enqueue_pos ≤ pos + 1
            omega
          · rfl
        · simp at ht
        · simp at ht

theorem try_dequeue_mono {T : Type} {s : State T} {fuel : Nat} {r : Option T} {t : State T}
    (h : try_dequeue s fuel = some (r, t)) :
    s.dequeue_pos ≤ t.dequeue_pos ∧ s.enqueue_pos = t.enqueue_pos := by
  unfold try_dequeue at h
  cases hcl : claimDeq s s.dequeue_pos fuel with
  | none => rw [hcl] at h; simp at h
  | some r2 =>
    cases r2 with
    | none =>
      rw [hcl] at h
      obtain ⟨h1, h2⟩ : none = r ∧ s = t := by simpa using h
      subst h2
      exact ⟨le_refl _, rfl⟩
    | some pr =>
      obtain ⟨pos, s1⟩ := pr
      rw [hcl] at h
      simp only [] at h
      obtain ⟨hp, hs1, _⟩ := claimDeq_spec hcl
      cases hnd : s1.buffer[pos &&& s1.mask]? with
      | none => rw [hnd] at h; simp at h
      | some node =>
        rw [hnd] at h
        simp only [] at h
        cases hst : node.storage with
        | none => rw [hst] at h; simp at h
        | some v =>
          rw [hst] at h
          obtain ⟨h1, h2⟩ : some v = r ∧
              setSlot s1 (pos &&& s1.mask)
                { sequence := pos + s1.capacity, storage := none } = t := by
            simpa using h
          subst h2
          subst hs1
          constructor
          · show s.dequeue_pos ≤ pos + 1
            omega
          · rfl

theorem try_dequeue_out_mono {T : Type} {s : State T} {fuel : Nat} {b : Bool} {r : Option T}
    {t : State T} (h : try_dequeue_out s fuel = some ((b, r), t)) :
    s.dequeue_pos ≤ t.dequeue_pos ∧ s.enqueue_pos = t.enqueue_pos := by
  unfold try_dequeue_out at h
  cases hcl : claimDeq s s.dequeue_pos fuel with
  | none => rw [hcl] at h; simp at h
  | some r2 =>
    cases r2 with
    | none =>
      rw [hcl] at h
      obtain ⟨⟨h1, h2⟩, h3⟩ : (b = false ∧ none = r) ∧ s = t := by simpa using h
      subst h3
      exact ⟨le_refl _, rfl⟩
    | some pr =>
      obtain ⟨pos, s1⟩ := pr
      rw [hcl] at h
      simp only [] at h
      obtain ⟨hp, hs1, _⟩ := claimDeq_spec hcl
      cases hnd : s1.buffer[pos &&& s1.mask]? with
      | none => rw [hnd] at h; simp at h
      | some node =>
        rw [hnd] at h
        simp only [] at h
        cases hst : node.storage with
        | none => rw [hst] at h; simp at h
        | some v =>
          rw [hst] at h
          obtain ⟨⟨h1, h2⟩, h3⟩ : (b = true ∧ some v = r) ∧
              setSlot s1 (pos &&& s1.mask)
                { sequence := pos + s1.capacity, storage := none } = t := by
            simpa using h
          subst h3
          subst hs1
          constructor
          · show s.dequeue_pos ≤ pos + 1
            omega
          · rfl

end MPMCQueue

namespace MPMCQueue

theorem runM_sat_state {T : Type} {s : State T} (hs : Sat s) :
    ∀ ops fuel t ins outs, runM fuel s ops = some (t, ins, outs) → Sat t := by
  intro ops
  induction ops generalizing s with
  | nil =>
    intro fuel t ins outs h
    obtain ⟨rfl, rfl, rfl⟩ : s = t ∧ [] = ins ∧ [] = outs := by simpa [runM] using h
    exact hs
  | cons op ops ih =>
    intro fuel t ins outs h
    cases op with
    | enq v =>
      cases fuel with
      | zero => simp [runM, try_emplace_zero] at h
      | succ fuel2 =>
        obtain ⟨w, hslot⟩ := Sat.slot_enq hs
        have hready := try_emplace_ready hslot rfl v fuel2
        rw [runM_enq_succ hready ops] at h
        cases hr : runM (fuel2 + 1)
            (setSlot { s with enqueue_pos := s.enqueue_pos + 1 } (s.enqueue_pos &&& s.mask)
              { sequence := s.enqueue_pos + 1, storage := some v }) ops with
        | none => rw [hr] at h; exact absurd h (by simp)
        | some r =>
          obtain ⟨t2, ins2, outs2⟩ := r
          rw [hr] at h
          obtain ⟨rfl, rfl, rfl⟩ : t2 = t ∧ v :: ins2 = ins ∧ outs2 = outs := by simpa using h
          exact ih (Sat.enq_preserved hs v) _ _ _ _ hr
    | deq =>
      have hd := try_dequeue_sat hs fuel
      rw [runM_deq_none hd ops] at h
      exact absurd h (by simp)

theorem runM_clean_state {T : Type} {k : Nat} :
    ∀ (ops : List (MOp T)) (s : State T) (pending : List T) (fuel : Nat)
      (t : State T) (ins outs : List T),
      Clean k s pending → runM fuel s ops = some (t, ins, outs) →
      (∃ pend2, Clean k t pend2) ∨ Sat t := by
  intro ops
  induction ops with
  | nil =>
    intro s pending fuel t ins outs hc h
    obtain ⟨rfl, rfl, rfl⟩ : s = t ∧ [] = ins ∧ [] = outs := by simpa [runM] using h
    exact Or.inl ⟨pending, hc⟩
  | cons op ops ih =>
    intro s pending fuel t ins outs hc h
    cases fuel with
    | zero =>
      cases op with
      | enq v => simp [runM, try_emplace_zero] at h
      | deq => simp [runM, try_dequeue_zero] at h
    | succ fuel2 =>
      cases op with
      | enq v =>
        by_cases hlt : pending.length < s.capacity
        · have hslot := Clean.slot_enq_free hc hlt
          have hready := try_emplace_ready hslot rfl v fuel2
          rw [runM_enq_succ hready ops] at h
          have hc2 := Clean.enq_step hc hlt v
          cases hr : runM (fuel2 + 1)
              (setSlot { s with enqueue_pos := s.enqueue_pos + 1 } (s.enqueue_pos &&& s.mask)
                { sequence := s.enqueue_pos + 1, storage := some v }) ops with
          | none => rw [hr] at h; exact absurd h (by simp)
          | some r =>
            obtain ⟨t2, ins2, outs2⟩ := r
            rw [hr] at h
            obtain ⟨rfl, rfl, rfl⟩ : t2 = t ∧ v :: ins2 = ins ∧ outs2 = outs := by simpa using h
            exact ih _ _ _ _ _ _ hc2 hr
        · have hlen : pending.length = s.capacity := le_antisymm hc.2.2.1 (le_of_not_lt hlt)
          obtain ⟨hlen0, hslot⟩ := Clean.slot_enq_full hc hlen
          by_cases hcap1 : s.capacity = 1
          · have hseq : (⟨s.dequeue_pos + 1, some (pending.get ⟨0, hlen0⟩)⟩ : Slot T).sequence
                = s.enqueue_pos := by
              show s.dequeue_pos + 1 = s.enqueue_pos
              have he := hc.2.1
              omega
            have hready := try_emplace_ready hslot hseq v fuel2
            rw [runM_enq_succ hready ops] at h
            have hsat : Sat (setSlot { s with enqueue_pos := s.enqueue_pos + 1 }
                (s.enqueue_pos &&& s.mask)
                { sequence := s.enqueue_pos + 1, storage := some v }) := by
              refine ⟨hcap1, ?_, ?_, ?_, v, ?_⟩
              · show s.mask = 0
                rw [hc.1.2.1, hcap1]
              · show (s.buffer.set (s.enqueue_pos &&& s.mask)
                    { sequence := s.enqueue_pos + 1, storage := some v }).length = 1
                simp [hc.1.2.2, hcap1]
              · show s.dequeue_pos + 2 ≤ s.enqueue_pos + 1
                have he := hc.2.1
                omega
              · show (s.buffer.set (s.enqueue_pos &&& s.mask)
                    { sequence := s.enqueue_pos + 1, storage := some v })[(s.enqueue_pos + 1) &&&
                      (setSlot { s with enqueue_pos := s.enqueue_pos + 1 }
                        (s.enqueue_pos &&& s.mask)
                        { sequence := s.enqueue_pos + 1, storage := some v }).mask]? =
                  some { sequence := s.enqueue_pos + 1, storage := some v }
                have hm0 : s.mask = 0 := by rw [hc.1.2.1, hcap1]
                rw [show (setSlot { s with enqueue_pos := s.enqueue_pos + 1 }
                    (s.enqueue_pos &&& s.mask)
                    { sequence := s.enqueue_pos + 1, storage := some v }).mask = s.mask from rfl]
                rw [hm0]
                simp only [Nat.and_zero]
                apply List.getElem?_set_self
                have hl := hc.1.2.2
                omega
            cases hr : runM (fuel2 + 1)
                (setSlot { s with enqueue_pos := s.enqueue_pos + 1 } (s.enqueue_pos &&& s.mask)
                  { sequence := s.enqueue_pos + 1, storage := some v }) ops with
            | none => rw [hr] at h; exact absurd h (by simp)
            | some r =>
              obtain ⟨t2, ins2, outs2⟩ := r
              rw [hr] at h
              obtain ⟨rfl, rfl, rfl⟩ : t2 = t ∧ v :: ins2 = ins ∧ outs2 = outs := by
                simpa using h
              exact Or.inr (runM_sat_state hsat ops _ _ _ _ hr)
          · have hltseq : (⟨s.dequeue_pos + 1, some (pending.get ⟨0, hlen0⟩)⟩ : Slot T).sequence
                < s.enqueue_pos := by
              show s.dequeue_pos + 1 < s.enqueue_pos
              have he := hc.2.1
              have := wf_cap_pos hc.1
              omega
            have hfail := try_emplace_fullret hslot hltseq v fuel2
            rw [runM_enq_fail hfail ops] at h
            exact ih _ _ _ _ _ _ hc h
      | deq =>
        cases pending with
        | nil =>
          have hslot := hc.2.2.2.2 ⟨0, wf_cap_pos hc.1⟩ (by simp)
          have hslot2 : slotAt s s.dequeue_pos =
              some { sequence := s.dequeue_pos, storage := none } := by
            simpa using hslot
          have hfail := try_dequeue_emptyret hslot2
            (by show s.dequeue_pos < s.dequeue_pos + 1; omega) fuel2
          rw [runM_deq_empty hfail ops] at h
          exact ih _ _ _ _ _ _ hc h
        | cons v rest =>
          have hslot := hc.2.2.2.1 ⟨0, by simp⟩
          have hslot2 : slotAt s s.dequeue_pos =
              some { sequence := s.dequeue_pos + 1, storage := some v } := by
            simpa using hslot
          have hready := try_dequeue_ready hslot2 rfl rfl fuel2
          rw [runM_deq_some hready ops] at h
          have hc2 := Clean.deq_step hc
          cases hr : runM (fuel2 + 1)
              (setSlot { s with dequeue_pos := s.dequeue_pos + 1 } (s.dequeue_pos &&& s.mask)
                { sequence := s.dequeue_pos + s.capacity, storage := none }) ops with
          | none => rw [hr] at h; exact absurd h (by simp)
          | some r =>
            obtain ⟨t2, ins2, outs2⟩ := r
            rw [hr] at h
            obtain ⟨rfl, rfl, rfl⟩ : t2 = t ∧ ins2 = ins ∧ v :: outs2 = outs := by simpa using h
            exact ih _ _ _ _ _ _ hc2 hr

end MPMCQueue

theorem lookup_none_of_not_mem_keys {T : Type} :
    ∀ (h : List (Nat × T)) (a : Nat), a ∉ h.map Prod.fst → h.lookup a = none := by
  intro h
  induction h with
  | nil => intro a ha; rfl
  | cons x t ih =>
    intro a ha
    simp only [List.map_cons, List.mem_cons] at ha
    push_neg at ha
    rw [List.lookup_cons]
    have hne : (a == x.1) = false := by
      rw [beq_eq_false_iff_ne]
      exact ha.1
    rw [hne]
    exact ih a ha.2

theorem lookup_eraseP_self {T : Type} :
    ∀ (h : List (Nat × T)) (a : Nat), (h.map Prod.fst).Nodup →
      (h.eraseP (fun e => e.1 == a)).lookup a = none := by
  intro h
  induction h with
  | nil => intro a hnd; rfl
  | cons x t ih =>
    intro a hnd
    simp only [List.map_cons, List.nodup_cons] at hnd
    rw [List.eraseP_cons]
    by_cases hx : x.1 = a
    · have hb : (x.1 == a) = true := by
        rw [beq_iff_eq]
        exact hx
      rw [hb]
      simp only [cond_true]
      apply lookup_none_of_not_mem_keys
      rw [← hx]
      exact hnd.1
    · have hb : (x.1 == a) = false := by
        rw [beq_eq_false_iff_ne]
        exact hx
      rw [hb]
      simp only [cond_false]
      rw [List.lookup_cons]
      have hb2 : (a == x.1) = false := by
        rw [beq_eq_false_iff_ne]
        exact fun hc => hx hc.symm
      rw [hb2]
      exact ih a hnd.2

namespace LockFreeQueue

theorem chain_lookup {T : Type} {h : List (Nat × Node T)} {a : Nat} {l : List Nat}
    (hc : Chain h a l) : ∃ nd, h.lookup a = some nd :=
  match hc with
  | Chain.last _ nd h1 _ => ⟨nd, h1⟩
  | Chain.cons _ nd _ _ h1 _ _ _ => ⟨nd, h1⟩

theorem chain_ne_nil {T : Type} {h : List (Nat × Node T)} {a : Nat} {l : List Nat}
    (hc : Chain h a l) : l ≠ [] :=
  match hc with
  | Chain.last _ _ _ _ => by simp
  | Chain.cons _ _ _ _ _ _ _ _ => by simp

theorem chain_cases {T : Type} {h : List (Nat × Node T)} {a : Nat} {l : List Nat}
    (hc : Chain h a l) :
    (l = [a] ∧ ∃ nd, h.lookup a = some nd ∧ nd.next = none) ∨
    (∃ nd b l2, l = a :: l2 ∧ h.lookup a = some nd ∧ nd.next = some b ∧
      Chain h b l2 ∧ a ∉ l2) :=
  match hc with
  | Chain.last _ nd h1 h2 => Or.inl ⟨rfl, nd, h1, h2⟩
  | Chain.cons _ nd b l2 h1 h2 h3 h4 => Or.inr ⟨nd, b, l2, rfl, h1, h2, h3, h4⟩

theorem wfQ_empty_next {T : Type} {s : State T} (hwf : wfQ s) (heq : s.head = s.tail) :
    ∃ hn, s.heap.lookup s.head = some hn ∧ hn.next = none := by
  obtain ⟨hnodup, l, hchain, hlast⟩ := hwf
  rcases chain_cases hchain with ⟨hl, nd, h1, h2⟩ | ⟨nd, b, l2, hl, h1, h2, h3, h4⟩
  · exact ⟨nd, h1, h2⟩
  · exfalso
    obtain ⟨c, l3, rfl⟩ : ∃ c l3, l2 = c :: l3 := by
      cases l2 with
      | nil => exact absurd rfl (chain_ne_nil h3)
      | cons c l3 => exact ⟨c, l3, rfl⟩
    rw [hl, List.getLast?_cons_cons] at hlast
    have hmem : s.tail ∈ c :: l3 := List.mem_of_getLast?_eq_some hlast
    rw [heq] at h4
    exact h4 hmem

theorem wfQ_nonempty_next {T : Type} {s : State T} (hwf : wfQ s) (hne : s.head ≠ s.tail) :
    ∃ hn b nb, s.heap.lookup s.head = some hn ∧ hn.next = some b ∧ s.heap.lookup b = some nb := by
  obtain ⟨hnodup, l, hchain, hlast⟩ := hwf
  rcases chain_cases hchain with ⟨hl, nd, h1, h2⟩ | ⟨nd, b, l2, hl, h1, h2, h3, h4⟩
  · exfalso
    rw [hl] at hlast
    have : some s.head = some s.tail := by
      rw [← hlast]
      rfl
    exact hne (Option.some_inj.1 this)
  · obtain ⟨nb, hnb⟩ := chain_lookup h3
    exact ⟨nd, b, nb, h1, h2, hnb⟩

theorem pop_empty {T : Type} {s : State T} {hn : Node T}
    (h1 : s.heap.lookup s.head = some hn) (h2 : hn.next = none) (heq : s.head = s.tail)
    (fuel : Nat) : pop s (fuel + 1) = some (none, s) := by
  show (match s.heap.lookup s.head with
    | none => none
    | some hn =>
      if s.head = s.tail then
        match hn.next with
        | none => some (none, s)
        | some t2 => pop { s with tail := t2 } fuel
      else
        match hn.next with
        | none => none
        | some a =>
          match s.heap.lookup a with
          | none => none
          | some nn =>
            some (some nn.data,
              { s with head := a, heap := s.heap.eraseP (fun e => e.1 == s.head) })) = _
  rw [h1]
  simp only []
  rw [if_pos heq, h2]

theorem pop_nonempty {T : Type} {s : State T} {hn nb : Node T} {b : Nat}
    (h1 : s.heap.lookup s.head = some hn) (h2 : hn.next = some b)
    (h3 : s.heap.lookup b = some nb) (hne : s.head ≠ s.tail) (fuel : Nat) :
    pop s (fuel + 1) = some (some nb.data,
      { s with head := b, heap := s.heap.eraseP (fun e => e.1 == s.head) }) := by
  show (match s.heap.lookup s.head with
    | none => none
    | some hn =>
      if s.head = s.tail then
        match hn.next with
        | none => some (none, s)
        | some t2 => pop { s with tail := t2 } fuel
      else
        match hn.next with
        | none => none
        | some a =>
          match s.heap.lookup a with
          | none => none
          | some nn =>
            some (some nn.data,
              { s with head := a, heap := s.heap.eraseP (fun e => e.1 == s.head) })) = _
  rw [h1]
  simp only []
  rw [if_neg hne, h2]
  simp only []
  rw [h3]

end LockFreeQueue

/-
Remaining support lemmas: the exception paths of both bounded structures,
the out-parameter variant of an empty read, and the pop of a stack whose
head is live.
-/

namespace MPMCQueue

theorem try_emplace_exc_ready {T E : Type} {s : State T} {node : Slot T}
    (hnode : slotAt s s.enqueue_pos = some node) (hseq : node.sequence = s.enqueue_pos)
    (e : E) (fuel : Nat) :
    try_emplace_exc (Except.error e) s (fuel + 1) =
      some (Except.error (e, setSlotSeq ({ s with enqueue_pos := s.enqueue_pos + 1 })
        (s.enqueue_pos &&& s.mask) (s.enqueue_pos + s.capacity))) := by
  unfold try_emplace_exc
  rw [claimEnq_hit hnode hseq]

theorem setSlotSeq_slotAt {T : Type} {s : State T} {q : Nat} {node : Slot T}
    (hnode : slotAt s q = some node) (nq : Nat) :
    slotAt (setSlotSeq s (q &&& s.mask) nq) q =
      some { sequence := nq, storage := node.storage } := by
  have hnode2 : s.buffer[q &&& s.mask]? = some node := hnode
  have hidx : q &&& s.mask < s.buffer.length := by
    by_contra hge
    rw [List.getElem?_eq_none (by omega)] at hnode2
    exact Option.noConfusion hnode2
  show (match s.buffer[q &&& s.mask]? with
      | none => s.buffer
      | some sl => s.buffer.set (q &&& s.mask) { sl with sequence := nq })[q &&& s.mask]? = _
  rw [hnode2]
  simp only []
  rw [List.getElem?_set_self hidx]

end MPMCQueue

namespace RingBuffer

theorem try_write_exc_err {T E : Type} {k : Nat} {s : State T} {pending : List T}
    (hc : Clean k s pending) (hlt : pending.length < s.capacity) (e : E) :
    ∃ cr2, cr2 ≤ s.read_pos ∧
      try_write_exc (Except.error e) s = Except.ok (false, { s with cached_read_pos := cr2 }) := by
  obtain ⟨hcap, hmask, hlens, hw, hple, hcr, hcw, hslots⟩ := hc
  by_cases h1 : s.capacity ≤ s.write_pos - s.cached_read_pos
  · refine ⟨s.read_pos, le_refl _, ?_⟩
    have h2 : ¬ (s.capacity ≤ s.write_pos - s.read_pos) := by omega
    simp only [try_write_exc]
    rw [if_pos h1]
    simp only []
    rw [if_neg h2]
  · refine ⟨s.cached_read_pos, hcr, ?_⟩
    simp only [try_write_exc]
    rw [if_neg h1]
    rw [if_neg h1]

theorem try_read_out_clean_empty {T : Type} {k : Nat} {s : State T} (hc : Clean k s []) :
    try_read_out s = some ((false, none), { s with cached_write_pos := s.write_pos }) := by
  obtain ⟨hcap, hmask, hlens, hw, hple, hcr, hcw, hslots⟩ := hc
  have hwr : s.write_pos = s.read_pos := by simpa using hw
  have h1 : s.cached_write_pos ≤ s.read_pos := by omega
  have h2 : s.write_pos ≤ s.read_pos := by omega
  simp only [try_read_out]
  rw [if_pos h1]
  simp only []
  rw [if_pos h2]

end RingBuffer

namespace LockFreeStack

theorem try_pop_head {T : Type} (s : State T) {a : Nat} {nd : Node T}
    (hh : s.head = some a) (hl : s.heap.lookup a = some nd) :
    try_pop s = some (true, some nd.data,
      { heap := s.heap.eraseP (fun e => e.1 == a), head := nd.next, fresh := s.fresh }) := by
  unfold try_pop
  rw [hh]
  simp only []
  rw [hl]

end LockFreeStack

/-
The ten claims.
-/

/-- Claim C1: slot sequence protocol of the bounded MPMC queue.  A successful
enqueue claim happens at the current enqueue cursor, at a slot whose sequence
equals that position; the subsequent write publishes sequence = pos + 1.  A
successful dequeue claim happens at the current dequeue cursor, at a slot
whose sequence equals pos + 1; after the value is extracted the slot is
republished with sequence = pos + capacity and destroyed storage.  At any
examined slot the signed difference sequence - expected classifies the slot:
zero lets the claim proceed (the CAS succeeding when the cursor is
unchanged), negative reports full (enqueue) or empty (dequeue), and positive
retries the loop with a freshly reloaded cursor. -/
theorem mpmc_slot_sequence_protocol (T : Type) (s : MPMCQueue.State T) (fuel : Nat) :
    (∀ (pos : Nat) (s1 : MPMCQueue.State T),
      MPMCQueue.claimEnq s s.enqueue_pos fuel = some (some (pos, s1)) →
      pos = s.enqueue_pos ∧ s1 = { s with enqueue_pos := pos + 1 } ∧
        (∃ nd, MPMCQueue.slotAt s pos = some nd ∧ nd.sequence = pos) ∧
        ∀ v : T, MPMCQueue.try_emplace v s fuel =
          some (true, MPMCQueue.setSlot s1 (pos &&& s1.mask)
            { sequence := pos + 1, storage := some v })) ∧
    (∀ (pos : Nat) (s1 : MPMCQueue.State T),
      MPMCQueue.claimDeq s s.dequeue_pos fuel = some (some (pos, s1)) →
      pos = s.dequeue_pos ∧ s1 = { s with dequeue_pos := pos + 1 } ∧
        (∃ nd, MPMCQueue.slotAt s pos = some nd ∧ nd.sequence = pos + 1) ∧
        ∀ (nd : MPMCQueue.Slot T) (w : T), MPMCQueue.slotAt s1 pos = some nd →
          nd.storage = some w →
          MPMCQueue.try_dequeue s fuel =
            some (some w, MPMCQueue.setSlot s1 (pos &&& s1.mask)
              { sequence := pos + s1.capacity, storage := none })) ∧
    (∀ (pos : Nat) (nd : MPMCQueue.Slot T), MPMCQueue.slotAt s pos = some nd →
      ((nd.sequence : Int) - (pos : Int) = 0 → s.enqueue_pos = pos →
        MPMCQueue.claimEnq s pos (fuel + 1) =
          some (some (pos, { s with enqueue_pos := pos + 1 }))) ∧
      ((nd.sequence : Int) - (pos : Int) < 0 →
        MPMCQueue.claimEnq s pos (fuel + 1) = some none) ∧
      (0 < (nd.sequence : Int) - (pos : Int) →
        MPMCQueue.claimEnq s pos (fuel + 1) = MPMCQueue.claimEnq s s.enqueue_pos fuel) ∧
      ((nd.sequence : Int) - ((pos : Int) + 1) = 0 → s.dequeue_pos = pos →
        MPMCQueue.claimDeq s pos (fuel + 1) =
          some (some (pos, { s with dequeue_pos := pos + 1 }))) ∧
      ((nd.sequence : Int) - ((pos : Int) + 1) < 0 →
        MPMCQueue.claimDeq s pos (fuel + 1) = some none) ∧
      (0 < (nd.sequence : Int) - ((pos : Int) + 1) →
        MPMCQueue.claimDeq s pos (fuel + 1) = MPMCQueue.claimDeq s s.dequeue_pos fuel)) := by
  refine ⟨?_, ?_, ?_⟩
  · intro pos s1 h
    obtain ⟨hp, hs1, nd, hnd, hseq⟩ := MPMCQueue.claimEnq_spec h
    refine ⟨hp, hs1, ⟨nd, hnd, hseq⟩, ?_⟩
    intro v
    unfold MPMCQueue.try_emplace
    rw [h]
  · intro pos s1 h
    obtain ⟨hp, hs1, nd, hnd, hseq⟩ := MPMCQueue.claimDeq_spec h
    refine ⟨hp, hs1, ⟨nd, hnd, hseq⟩, ?_⟩
    intro nd2 w hnd2 hst
    have hnd3 : s1.buffer[pos &&& s1.mask]? = some nd2 := hnd2
    unfold MPMCQueue.try_dequeue
    rw [h]
    simp only []
    rw [hnd3]
    simp only []
    rw [hst]
  · intro pos nd hnd
    have hnd2 : s.buffer[pos &&& s.mask]? = some nd := hnd
    refine ⟨?_, ?_, ?_, ?_, ?_, ?_⟩
    · intro hd0 hcas
      subst hcas
      exact MPMCQueue.claimEnq_hit hnd2 (by omega) fuel
    · intro hlt
      exact MPMCQueue.claimEnq_fullret hnd2 (by omega) fuel
    · intro hgt
      exact MPMCQueue.claimEnq_retry hnd2 (by omega) fuel
    · intro hd0 hcas
      subst hcas
      exact MPMCQueue.claimDeq_hit hnd2 (by omega) fuel
    · intro hlt
      exact MPMCQueue.claimDeq_emptyret hnd2 (by omega) fuel
    · intro hgt
      exact MPMCQueue.claimDeq_retry hnd2 (by omega) fuel

/-- Witness for C1: on a fresh queue of capacity 4 the slot at position 0 has
sequence 0, so the enqueue claim succeeds at position 0 and the dequeue claim
reports empty. -/
theorem mpmc_slot_sequence_protocol_witness :
    MPMCQueue.claimEnq (MPMCQueue.init Nat 4) 0 1 =
      some (some (0, { MPMCQueue.init Nat 4 with enqueue_pos := 0 + 1 })) ∧
    MPMCQueue.claimDeq (MPMCQueue.init Nat 4) 0 1 = some none := by
  constructor
  · exact ((mpmc_slot_sequence_protocol Nat (MPMCQueue.init Nat 4) 0).2.2 0
      ⟨0, none⟩ (by decide)).1 (by decide) (by decide)
  · exact ((mpmc_slot_sequence_protocol Nat (MPMCQueue.init Nat 4) 0).2.2 0
      ⟨0, none⟩ (by decide)).2.2.2.2.1 (by decide)

/-- Claim C2: in any single-threaded run over a freshly constructed bounded
MPMC queue or SPSC ring buffer, the successfully dequeued/read values are a
prefix of the successfully enqueued/written values, in order (FIFO). -/
theorem fifo_single_thread :
    (∀ (T : Type) (n : Nat), n < 2 ^ 64 →
      ∀ (ops : List (MPMCQueue.MOp T)) (fuel : Nat) (t : MPMCQueue.State T)
        (ins outs : List T),
        MPMCQueue.runM fuel (MPMCQueue.init T n) ops = some (t, ins, outs) →
        ∃ rest, ins = outs ++ rest) ∧
    (∀ (T : Type) (n : Nat), n < 2 ^ 64 →
      ∀ (ops : List (RingBuffer.ROp T)) (t : RingBuffer.State T) (ins outs : List T),
        RingBuffer.runR (RingBuffer.init T n) ops = some (t, ins, outs) →
        ∃ rest, ins = outs ++ rest) :=
  ⟨fun _ n hn ops fuel t ins outs h => MPMCQueue.mpmc_fifo_aux n hn ops fuel t ins outs h,
   fun _ n hn ops t ins outs h => RingBuffer.rb_fifo_aux n hn ops t ins outs h⟩

/-- Witness for C2: the run enqueue 1, enqueue 2, dequeue, dequeue on a
capacity-4 queue writes [1, 2] and reads [1, 2]. -/
theorem fifo_single_thread_witness : ∃ rest, ([1, 2] : List Nat) = [1, 2] ++ rest :=
  fifo_single_thread.1 Nat 4 (by norm_num)
    [MPMCQueue.MOp.enq 1, MPMCQueue.MOp.enq 2, MPMCQueue.MOp.deq, MPMCQueue.MOp.deq] 1
    ⟨4, 3, 2, 2, [⟨4, none⟩, ⟨5, none⟩, ⟨2, none⟩, ⟨3, none⟩]⟩ [1, 2] [1, 2] (by decide)

/-- Claim C3 (amended): boundary behaviour of the bounded MPMC queue on a
reachable (Clean) state.  When the capacity is at least 2 and the queue is
full, try_emplace returns false with the state (cursors and every slot)
completely unchanged; when the queue is empty, try_dequeue returns the empty
optional and try_dequeue (T and out) returns false without assigning the out
parameter, both leaving the state unchanged.  The capacity ≥ 2 guard is
necessary: at capacity 1 a full-queue enqueue wrongly succeeds (see the
counterexample). -/
theorem mpmc_boundary_returns (T : Type) (k : Nat) (s : MPMCQueue.State T)
    (pending : List T) (hc : MPMCQueue.Clean k s pending) (fuel : Nat) :
    (2 ≤ s.capacity → MPMCQueue.full s = true →
      ∀ v : T, MPMCQueue.try_emplace v s (fuel + 1) = some (false, s)) ∧
    (MPMCQueue.isEmpty s = true →
      MPMCQueue.try_dequeue s (fuel + 1) = some (none, s) ∧
      MPMCQueue.try_dequeue_out s (fuel + 1) = some ((false, none), s)) := by
  have he := hc.2.1
  have hle := hc.2.2.1
  constructor
  · intro hcap2 hfull v
    have hcaple : s.capacity ≤ MPMCQueue.size s := by
      simpa [MPMCQueue.full] using hfull
    have hsz : MPMCQueue.size s = pending.length := by
      show s.enqueue_pos - s.dequeue_pos = pending.length
      omega
    have hlen : pending.length = s.capacity := by omega
    obtain ⟨hlen0, hslot⟩ := MPMCQueue.Clean.slot_enq_full hc hlen
    exact MPMCQueue.try_emplace_fullret hslot
      (by show s.dequeue_pos + 1 < s.enqueue_pos; omega) v fuel
  · intro hemp
    have hed : s.enqueue_pos ≤ s.dequeue_pos := by
      simpa [MPMCQueue.isEmpty] using hemp
    have hlen0 : pending.length = 0 := by omega
    have hcappos : 0 < s.capacity := MPMCQueue.wf_cap_pos hc.1
    have hslot := hc.2.2.2.2 ⟨0, hcappos⟩ (by show pending.length ≤ 0; omega)
    have hslot2 : MPMCQueue.slotAt s s.dequeue_pos =
        some { sequence := s.dequeue_pos, storage := none } := by simpa using hslot
    exact ⟨MPMCQueue.try_dequeue_emptyret hslot2
        (by show s.dequeue_pos < s.dequeue_pos + 1; omega) fuel,
      MPMCQueue.try_dequeue_out_emptyret hslot2
        (by show s.dequeue_pos < s.dequeue_pos + 1; omega) fuel⟩

/-- Witness for C3: a full capacity-2 queue rejects an enqueue unchanged, and
a fresh capacity-4 queue reports empty on both dequeue entry points. -/
theorem mpmc_boundary_returns_witness :
    MPMCQueue.try_emplace 7 (⟨2, 1, 2, 0, [⟨1, some 5⟩, ⟨2, some 6⟩]⟩ :
        MPMCQueue.State Nat) 1 =
      some (false, ⟨2, 1, 2, 0, [⟨1, some 5⟩, ⟨2, some 6⟩]⟩) ∧
    MPMCQueue.try_dequeue (MPMCQueue.init Nat 4) 1 = some (none, MPMCQueue.init Nat 4) ∧
    MPMCQueue.try_dequeue_out (MPMCQueue.init Nat 4) 1 =
      some ((false, none), MPMCQueue.init Nat 4) :=
  ⟨(mpmc_boundary_returns Nat 1
      (⟨2, 1, 2, 0, [⟨1, some 5⟩, ⟨2, some 6⟩]⟩ : MPMCQueue.State Nat) [5, 6]
      ⟨⟨rfl, rfl, rfl⟩, rfl, by decide, by decide, by decide⟩ 0).1 (by decide) (by decide) 7,
   ((mpmc_boundary_returns Nat 2 (MPMCQueue.init Nat 4) []
      (MPMCQueue.clean_init Nat 4 2 (by decide)) 0).2 (by decide)).1,
   ((mpmc_boundary_returns Nat 2 (MPMCQueue.init Nat 4) []
      (MPMCQueue.clean_init Nat 4 2 (by decide)) 0).2 (by decide)).2⟩

/-- Counterexample to C3 as stated: at capacity 1 the queue reaches a full
state (full = true, one resident element) from which try_emplace succeeds,
overwriting the stored element and changing size from 1 to 2. -/
theorem mpmc_boundary_returns_cex :
    MPMCQueue.try_emplace 10 (MPMCQueue.init Nat 1) 1 =
      some (true, ⟨1, 0, 1, 0, [⟨1, some 10⟩]⟩) ∧
    MPMCQueue.full (⟨1, 0, 1, 0, [⟨1, some 10⟩]⟩ : MPMCQueue.State Nat) = true ∧
    MPMCQueue.try_emplace 20 (⟨1, 0, 1, 0, [⟨1, some 10⟩]⟩ : MPMCQueue.State Nat) 1 =
      some (true, ⟨1, 0, 2, 0, [⟨2, some 20⟩]⟩) ∧
    MPMCQueue.size (⟨1, 0, 1, 0, [⟨1, some 10⟩]⟩ : MPMCQueue.State Nat) = 1 ∧
    MPMCQueue.size (⟨1, 0, 2, 0, [⟨2, some 20⟩]⟩ : MPMCQueue.State Nat) = 2 := by
  decide

/-- Claim C4 (amended): cursor and residency invariant of the bounded MPMC
queue.  In every state reached by a single-threaded run from a fresh queue
whose final capacity is at least 2, enqueue_pos - dequeue_pos equals the
number of slots holding a constructed element and never exceeds the rounded
capacity; and every completing operation (try_emplace, try_dequeue, both
try_dequeue overloads) leaves each cursor greater than or equal to its
previous value.  At capacity 1 the residency equation and the capacity bound
fail on reachable states (see the counterexample). -/
theorem mpmc_cursor_residency_invariant :
    (∀ (T : Type) (n : Nat), n ≤ 2 ^ 63 →
      ∀ (ops : List (MPMCQueue.MOp T)) (fuel : Nat) (t : MPMCQueue.State T)
        (ins outs : List T),
        MPMCQueue.runM fuel (MPMCQueue.init T n) ops = some (t, ins, outs) →
        2 ≤ t.capacity →
        MPMCQueue.size t = MPMCQueue.resident t ∧ MPMCQueue.size t ≤ t.capacity) ∧
    (∀ (T : Type) (s t : MPMCQueue.State T) (v : T) (fuel : Nat) (b : Bool),
      MPMCQueue.try_emplace v s fuel = some (b, t) →
      s.enqueue_pos ≤ t.enqueue_pos ∧ s.dequeue_pos ≤ t.dequeue_pos) ∧
    (∀ (T : Type) (s t : MPMCQueue.State T) (fuel : Nat) (r : Option T),
      MPMCQueue.try_dequeue s fuel = some (r, t) →
      s.enqueue_pos ≤ t.enqueue_pos ∧ s.dequeue_pos ≤ t.dequeue_pos) ∧
    (∀ (T : Type) (s t : MPMCQueue.State T) (fuel : Nat) (b : Bool) (r : Option T),
      MPMCQueue.try_dequeue_out s fuel = some ((b, r), t) →
      s.enqueue_pos ≤ t.enqueue_pos ∧ s.dequeue_pos ≤ t.dequeue_pos) := by
  refine ⟨?_, ?_, ?_, ?_⟩
  · intro T n hn ops fuel t ins outs h hcap2
    obtain ⟨k, hk⟩ := npot_pow n hn
    have hc0 := MPMCQueue.clean_init T n k hk
    rcases MPMCQueue.runM_clean_state ops _ [] fuel t ins outs hc0 h with ⟨pend2, hct⟩ | hsat
    · have hres := MPMCQueue.clean_resident hct
      have he := hct.2.1
      have hle := hct.2.2.1
      constructor
      · show t.enqueue_pos - t.dequeue_pos = MPMCQueue.resident t
        omega
      · show t.enqueue_pos - t.dequeue_pos ≤ t.capacity
        omega
    · exact absurd hsat.1 (by omega)
  · intro T s t v fuel b h
    obtain ⟨h1, h2⟩ := MPMCQueue.try_emplace_mono h
    exact ⟨h1, by omega⟩
  · intro T s t fuel r h
    obtain ⟨h1, h2⟩ := MPMCQueue.try_dequeue_mono h
    exact ⟨by omega, h1⟩
  · intro T s t fuel b r h
    obtain ⟨h1, h2⟩ := MPMCQueue.try_dequeue_out_mono h
    exact ⟨by omega, h1⟩

/-- Witness for C4: the state after enqueue 1, enqueue 2, dequeue, dequeue on
a capacity-4 queue satisfies the residency equation and the capacity bound,
and one try_emplace from the fresh queue moves the enqueue cursor forward. -/
theorem mpmc_cursor_residency_invariant_witness :
    (MPMCQueue.size (⟨4, 3, 2, 2, [⟨4, none⟩, ⟨5, none⟩, ⟨2, none⟩, ⟨3, none⟩]⟩ :
        MPMCQueue.State Nat) =
      MPMCQueue.resident (⟨4, 3, 2, 2, [⟨4, none⟩, ⟨5, none⟩, ⟨2, none⟩, ⟨3, none⟩]⟩ :
        MPMCQueue.State Nat) ∧
      MPMCQueue.size (⟨4, 3, 2, 2, [⟨4, none⟩, ⟨5, none⟩, ⟨2, none⟩, ⟨3, none⟩]⟩ :
        MPMCQueue.State Nat) ≤
      (⟨4, 3, 2, 2, [⟨4, none⟩, ⟨5, none⟩, ⟨2, none⟩, ⟨3, none⟩]⟩ :
        MPMCQueue.State Nat).capacity) ∧
    ((MPMCQueue.init Nat 4).enqueue_pos ≤
        (⟨4, 3, 1, 0, [⟨1, some 9⟩, ⟨1, none⟩, ⟨2, none⟩, ⟨3, none⟩]⟩ :
          MPMCQueue.State Nat).enqueue_pos ∧
      (MPMCQueue.init Nat 4).dequeue_pos ≤
        (⟨4, 3, 1, 0, [⟨1, some 9⟩, ⟨1, none⟩, ⟨2, none⟩, ⟨3, none⟩]⟩ :
          MPMCQueue.State Nat).dequeue_pos) :=
  ⟨mpmc_cursor_residency_invariant.1 Nat 4 (by norm_num)
      [MPMCQueue.MOp.enq 1, MPMCQueue.MOp.enq 2, MPMCQueue.MOp.deq, MPMCQueue.MOp.deq] 1
      _ [1, 2] [1, 2] (by decide) (by decide),
   mpmc_cursor_residency_invariant.2.1 Nat (MPMCQueue.init Nat 4) _ 9 1 true (by decide)⟩

/-- Counterexample to C4 as stated: at capacity 1 two successive successful
enqueues from the fresh queue reach a state where size() = 2 exceeds the
capacity 1 and differs from the single resident element. -/
theorem mpmc_cursor_residency_cex :
    MPMCQueue.try_emplace 10 (MPMCQueue.init Nat 1) 1 =
      some (true, ⟨1, 0, 1, 0, [⟨1, some 10⟩]⟩) ∧
    MPMCQueue.try_emplace 20 (⟨1, 0, 1, 0, [⟨1, some 10⟩]⟩ : MPMCQueue.State Nat) 1 =
      some (true, ⟨1, 0, 2, 0, [⟨2, some 20⟩]⟩) ∧
    MPMCQueue.size (⟨1, 0, 2, 0, [⟨2, some 20⟩]⟩ : MPMCQueue.State Nat) = 2 ∧
    MPMCQueue.resident (⟨1, 0, 2, 0, [⟨2, some 20⟩]⟩ : MPMCQueue.State Nat) = 1 ∧
    (⟨1, 0, 2, 0, [⟨2, some 20⟩]⟩ : MPMCQueue.State Nat).capacity = 1 := by
  decide

/-- Claim C5 (amended): capacity round-trip.  For every requested capacity
n up to 2^63, constructing an MPMCQueue or a RingBuffer yields
capacity() = next_power_of_two(n), the least power of two at least n (with
1 for n = 0).  Beyond 2^63 the 64-bit bit-smearing implementation wraps to 0
(see the counterexample), so the round-trip does not hold for every k. -/
theorem capacity_round_trip (T : Type) (n : Nat) (h : n ≤ 2 ^ 63) :
    (MPMCQueue.init T n).capacity = specNextPow2 n ∧
    (RingBuffer.init T n).capacity = specNextPow2 n := by
  constructor
  · show MPMCQueue.next_power_of_2 n = specNextPow2 n
    exact mpmc_npot_eq_spec n h
  · show RingBuffer.next_power_of_2 n = specNextPow2 n
    rw [rb_npot_eq_mpmc]
    exact mpmc_npot_eq_spec n h

/-- Witness for C5: the examples of the claim, n = 5 and 8 give capacity 8,
n = 0 gives capacity 1, for both structures. -/
theorem capacity_round_trip_witness :
    (MPMCQueue.init Nat 5).capacity = specNextPow2 5 ∧
    (MPMCQueue.init Nat 5).capacity = 8 ∧
    (MPMCQueue.init Nat 8).capacity = 8 ∧
    (RingBuffer.init Nat 5).capacity = 8 ∧
    (RingBuffer.init Nat 8).capacity = 8 ∧
    (MPMCQueue.init Nat 0).capacity = 1 ∧
    (RingBuffer.init Nat 0).capacity = 1 :=
  ⟨(capacity_round_trip Nat 5 (by norm_num)).1, by decide, by decide, by decide,
   by decide, by decide, by decide⟩

/-- Counterexample to C5 as stated: at n = 2^63 + 1 both implementations
return 0 (the or-cascade smears to 2^64 - 1 and the increment wraps the
64-bit size_t), while the least power of two at least n is 2^64; the
constructed queue has capacity() = 0. -/
theorem capacity_round_trip_cex :
    MPMCQueue.next_power_of_2 (2 ^ 63 + 1) = 0 ∧
    RingBuffer.next_power_of_2 (2 ^ 63 + 1) = 0 ∧
    (MPMCQueue.init Nat (2 ^ 63 + 1)).capacity = 0 ∧
    specNextPow2 (2 ^ 63 + 1) = 2 ^ 64 ∧
    (0 : Nat) ≠ 2 ^ 64 := by
  have h1 : MPMCQueue.next_power_of_2 (2 ^ 63 + 1) = 0 :=
    mpmc_npot_overflow (2 ^ 63 + 1) (by norm_num) (by norm_num)
  have h2 : specNextPow2 (2 ^ 63 + 1) = 2 ^ 64 := by
    unfold specNextPow2
    rw [if_neg (Nat.succ_ne_zero _)]
    have hle : Nat.clog 2 (2 ^ 63 + 1) ≤ 64 :=
      (Nat.le_pow_iff_clog_le (by omega)).1 (by norm_num)
    have hgt : ¬ Nat.clog 2 (2 ^ 63 + 1) ≤ 63 := by
      intro hcle
      have := (Nat.le_pow_iff_clog_le (show (1 : Nat) < 2 by omega)).2 hcle
      norm_num at this
    have hc : Nat.clog 2 (2 ^ 63 + 1) = 64 := by omega
    rw [hc]
  refine ⟨h1, by rw [rb_npot_eq_mpmc]; exact h1, ?_, h2, by norm_num⟩
  show MPMCQueue.next_power_of_2 (2 ^ 63 + 1) = 0
  exact h1

/-- Claim C6: pop of the unbounded Michael-Scott queue on a well-formed
state.  Head equals tail exactly when the head node's next is null; in that
case pop returns the failure result with nothing changed.  Otherwise pop
advances head to head->next, returns the data of the node that was
head->next, and retires the old head node, which is no longer reachable by
address lookup.  The returned failure is equivalent to the queue being
empty. -/
theorem msq_pop_spec (T : Type) (s : LockFreeQueue.State T)
    (hwf : LockFreeQueue.wfQ s) (fuel : Nat) :
    (s.head = s.tail ↔ ∃ hn, s.heap.lookup s.head = some hn ∧ hn.next = none) ∧
    (s.head = s.tail → LockFreeQueue.pop s (fuel + 1) = some (none, s)) ∧
    (s.head ≠ s.tail → ∃ hn b nb,
      s.heap.lookup s.head = some hn ∧ hn.next = some b ∧ s.heap.lookup b = some nb ∧
      LockFreeQueue.pop s (fuel + 1) = some (some nb.data,
        { s with head := b, heap := s.heap.eraseP (fun e => e.1 == s.head) }) ∧
      (s.heap.eraseP (fun e => e.1 == s.head)).lookup s.head = none) ∧
    (∀ (r : Option T) (t : LockFreeQueue.State T),
      LockFreeQueue.pop s (fuel + 1) = some (r, t) → (r = none ↔ s.head = s.tail)) := by
  refine ⟨?_, ?_, ?_, ?_⟩
  · constructor
    · exact fun heq => LockFreeQueue.wfQ_empty_next hwf heq
    · intro hex
      obtain ⟨hn, h1, h2⟩ := hex
      by_contra hne
      obtain ⟨hn2, b, nb, h1b, h2b, _⟩ := LockFreeQueue.wfQ_nonempty_next hwf hne
      rw [h1] at h1b
      have heq2 : hn = hn2 := Option.some_inj.1 h1b
      subst heq2
      rw [h2] at h2b
      exact Option.noConfusion h2b
  · intro heq
    obtain ⟨hn, h1, h2⟩ := LockFreeQueue.wfQ_empty_next hwf heq
    exact LockFreeQueue.pop_empty h1 h2 heq fuel
  · intro hne
    obtain ⟨hn, b, nb, h1, h2, h3⟩ := LockFreeQueue.wfQ_nonempty_next hwf hne
    exact ⟨hn, b, nb, h1, h2, h3, LockFreeQueue.pop_nonempty h1 h2 h3 hne fuel,
      lookup_eraseP_self s.heap s.head hwf.1⟩
  · intro r t hpop
    by_cases heq : s.head = s.tail
    · obtain ⟨hn, h1, h2⟩ := LockFreeQueue.wfQ_empty_next hwf heq
      rw [LockFreeQueue.pop_empty h1 h2 heq fuel] at hpop
      obtain ⟨h3, h4⟩ : none = r ∧ s = t := by simpa using hpop
      subst h3
      simp [heq]
    · obtain ⟨hn, b, nb, h1, h2, h3⟩ := LockFreeQueue.wfQ_nonempty_next hwf heq
      rw [LockFreeQueue.pop_nonempty h1 h2 h3 heq fuel] at hpop
      simp only [Option.some.injEq, Prod.mk.injEq] at hpop
      obtain ⟨h4, h5⟩ := hpop
      constructor
      · intro hr
        rw [← h4] at hr
        exact Option.noConfusion hr
      · intro hc
        exact absurd hc heq

/-- Witness for C6: the fresh queue (head = tail = the dummy node) answers
empty, and the queue holding one pushed element 5 pops it, retiring the old
dummy head. -/
theorem msq_pop_spec_witness :
    LockFreeQueue.pop (LockFreeQueue.init (0 : Nat)) 1 =
      some (none, LockFreeQueue.init (0 : Nat)) ∧
    (∃ hn b nb,
      ([(1, (⟨5, none⟩ : LockFreeQueue.Node Nat)), (0, ⟨0, some 1⟩)] :
        List (Nat × LockFreeQueue.Node Nat)).lookup 0 = some hn ∧
      hn.next = some b ∧
      ([(1, (⟨5, none⟩ : LockFreeQueue.Node Nat)), (0, ⟨0, some 1⟩)] :
        List (Nat × LockFreeQueue.Node Nat)).lookup b = some nb ∧
      LockFreeQueue.pop
          (⟨[(1, ⟨5, none⟩), (0, ⟨0, some 1⟩)], 0, 1, 2⟩ : LockFreeQueue.State Nat) 1 =
        some (some nb.data,
          { (⟨[(1, ⟨5, none⟩), (0, ⟨0, some 1⟩)], 0, 1, 2⟩ : LockFreeQueue.State Nat) with
              head := b,
              heap := ([(1, (⟨5, none⟩ : LockFreeQueue.Node Nat)), (0, ⟨0, some 1⟩)] :
                List (Nat × LockFreeQueue.Node Nat)).eraseP (fun e => e.1 == 0) }) ∧
      (([(1, (⟨5, none⟩ : LockFreeQueue.Node Nat)), (0, ⟨0, some 1⟩)] :
        List (Nat × LockFreeQueue.Node Nat)).eraseP (fun e => e.1 == 0)).lookup 0 = none) := by
  constructor
  · exact (msq_pop_spec Nat (LockFreeQueue.init (0 : Nat))
      ⟨by decide, [0], LockFreeQueue.Chain.last 0 ⟨0, none⟩ rfl rfl, rfl⟩ 0).2.1 rfl
  · exact (msq_pop_spec Nat
      (⟨[(1, ⟨5, none⟩), (0, ⟨0, some 1⟩)], 0, 1, 2⟩ : LockFreeQueue.State Nat)
      ⟨by decide, [0, 1],
        LockFreeQueue.Chain.cons 0 ⟨0, some 1⟩ 1 [1] rfl rfl
          (LockFreeQueue.Chain.last 1 ⟨5, none⟩ rfl rfl) (by decide), rfl⟩ 0).2.2.1 (by decide)

/-- Claim C7: the unbounded lock-free stack is LIFO in a single-threaded
sequence: after push a then push b, the first try_pop yields b and the
second yields a, restoring the original heap and head; try_pop returns false
exactly when the observed head is null, and in that case assigns nothing to
the out parameter and changes nothing. -/
theorem stack_lifo_pop_spec :
    (∀ (T : Type) (s : LockFreeStack.State T) (a b : T),
      LockFreeStack.try_pop (LockFreeStack.push b (LockFreeStack.push a s)) =
        some (true, some b,
          { heap := (s.fresh, { data := a, next := s.head }) :: s.heap,
            head := some s.fresh, fresh := s.fresh + 2 }) ∧
      LockFreeStack.try_pop
          ({ heap := (s.fresh, { data := a, next := s.head }) :: s.heap,
             head := some s.fresh, fresh := s.fresh + 2 } : LockFreeStack.State T) =
        some (true, some a, { heap := s.heap, head := s.head, fresh := s.fresh + 2 })) ∧
    (∀ (T : Type) (s : LockFreeStack.State T), s.head = none →
      LockFreeStack.try_pop s = some (false, none, s)) ∧
    (∀ (T : Type) (s : LockFreeStack.State T) (r : Bool) (out : Option T)
      (t : LockFreeStack.State T), LockFreeStack.try_pop s = some (r, out, t) →
      ((r = false ↔ s.head = none) ∧ (r = false → out = none ∧ t = s))) := by
  refine ⟨?_, ?_, ?_⟩
  · intro T s a b
    constructor
    · have hh2 : (LockFreeStack.push b (LockFreeStack.push a s)).head = some (s.fresh + 1) := rfl
      have hl : (LockFreeStack.push b (LockFreeStack.push a s)).heap.lookup (s.fresh + 1) = some { data := b, next := some s.fresh } := by
        simp [LockFreeStack.push, List.lookup]
      have hpop := LockFreeStack.try_pop_head (LockFreeStack.push b (LockFreeStack.push a s)) hh2 hl
      rw [hpop]
      have herase : (LockFreeStack.push b (LockFreeStack.push a s)).heap.eraseP (fun e => e.1 == s.fresh + 1) = (s.fresh, ({ data := a, next := s.head } : LockFreeStack.Node T)) :: s.heap := by
        simp [LockFreeStack.push, List.eraseP_cons]
      rw [herase]
      rfl
    · have hh2 : (({ heap := (s.fresh, { data := a, next := s.head }) :: s.heap, head := some s.fresh, fresh := s.fresh + 2 } : LockFreeStack.State T)).head = some s.fresh := rfl
      have hl : (({ heap := (s.fresh, { data := a, next := s.head }) :: s.heap, head := some s.fresh, fresh := s.fresh + 2 } : LockFreeStack.State T)).heap.lookup s.fresh = some { data := a, next := s.head } := by
        simp [List.lookup]
      have hpop := LockFreeStack.try_pop_head ({ heap := (s.fresh, { data := a, next := s.head }) :: s.heap, head := some s.fresh, fresh := s.fresh + 2 } : LockFreeStack.State T) hh2 hl
      rw [hpop]
      have herase : (({ heap := (s.fresh, { data := a, next := s.head }) :: s.heap, head := some s.fresh, fresh := s.fresh + 2 } : LockFreeStack.State T)).heap.eraseP (fun e => e.1 == s.fresh) = s.heap := by
        simp [List.eraseP_cons]
      rw [herase]
  · intro T s h
    unfold LockFreeStack.try_pop
    rw [h]
  · intro T s r out t h
    cases hh : s.head with
    | none =>
      unfold LockFreeStack.try_pop at h
      rw [hh] at h
      obtain ⟨h1, h2, h3⟩ : false = r ∧ none = out ∧ s = t := by simpa using h
      subst h1
      subst h2
      subst h3
      exact ⟨by simp [hh], fun _ => ⟨rfl, rfl⟩⟩
    | some a =>
      unfold LockFreeStack.try_pop at h
      rw [hh] at h
      simp only [] at h
      cases hl : s.heap.lookup a with
      | none =>
        rw [hl] at h
        exact absurd h (by simp)
      | some nd =>
        rw [hl] at h
        obtain ⟨h1, h2, h3⟩ : true = r ∧ some nd.data = out ∧
            ({ heap := s.heap.eraseP (fun e => e.1 == a), head := nd.next,
               fresh := s.fresh } : LockFreeStack.State T) = t := by simpa using h
        subst h1
        exact ⟨⟨fun hf => Bool.noConfusion hf, fun hc => Option.noConfusion hc⟩,
          fun hf => Bool.noConfusion hf⟩

/-- Witness for C7: push 1 then push 2 on the empty stack, pop yields 2 then
1 and restores the empty stack; try_pop of the empty stack reports false
without touching anything. -/
theorem stack_lifo_pop_spec_witness :
    LockFreeStack.try_pop
        (LockFreeStack.push 2 (LockFreeStack.push 1 (LockFreeStack.init Nat))) =
      some (true, some 2,
        { heap := [(0, { data := 1, next := none })], head := some 0, fresh := 2 }) ∧
    LockFreeStack.try_pop
        ({ heap := [(0, { data := 1, next := none })], head := some 0, fresh := 2 } :
          LockFreeStack.State Nat) =
      some (true, some 1, { heap := [], head := none, fresh := 2 }) ∧
    LockFreeStack.try_pop (LockFreeStack.init Nat) =
      some (false, none, LockFreeStack.init Nat) :=
  ⟨(stack_lifo_pop_spec.1 Nat (LockFreeStack.init Nat) 1 2).1,
   (stack_lifo_pop_spec.1 Nat (LockFreeStack.init Nat) 1 2).2,
   stack_lifo_pop_spec.2.1 Nat (LockFreeStack.init Nat) rfl⟩

/-- Claim C8: RingBuffer try_write and try_emplace on a reachable (Clean)
state.  The call fails, returning false and touching neither write_pos nor
the stored elements, exactly when the buffer is full (write_pos - read_pos
has reached the capacity); the stale-cache check triggers at most one
refresh of cached_read_pos from read_pos, so the failing result carries the
refreshed cache and is otherwise the unchanged state.  On success the
element is stored at slot write_pos mod capacity and write_pos + 1 is
published.  try_emplace is the same function as try_write. -/
theorem rb_try_write_spec (T : Type) (k : Nat) (s : RingBuffer.State T)
    (pending : List T) (hc : RingBuffer.Clean k s pending) (v : T) :
    ((RingBuffer.try_write v s).1 = false ↔ s.capacity ≤ s.write_pos - s.read_pos) ∧
    ((RingBuffer.try_write v s).1 = false →
      RingBuffer.try_write v s = (false, { s with cached_read_pos := s.read_pos })) ∧
    (s.write_pos - s.read_pos < s.capacity →
      ∃ cr2, cr2 ≤ s.read_pos ∧
        RingBuffer.try_write v s = (true,
          { s with cached_read_pos := cr2,
                   storage := s.storage.set (s.write_pos &&& s.mask) (some v),
                   write_pos := s.write_pos + 1 })) ∧
    RingBuffer.try_emplace v s = RingBuffer.try_write v s := by
  have hw := hc.2.2.2.1
  have hple := hc.2.2.2.2.1
  by_cases hfull : pending.length = s.capacity
  · obtain ⟨heq, _⟩ := RingBuffer.try_write_clean_full hc hfull v
    refine ⟨?_, ?_, ?_, rfl⟩
    · rw [heq]
      exact ⟨fun _ => by omega, fun _ => rfl⟩
    · intro _
      exact heq
    · intro hlt
      exact absurd hlt (by omega)
  · have hlt : pending.length < s.capacity := by omega
    obtain ⟨cr2, hcr2, heq, _⟩ := RingBuffer.try_write_clean_succ hc hlt v
    refine ⟨?_, ?_, ?_, rfl⟩
    · rw [heq]
      exact ⟨fun hf => Bool.noConfusion hf, fun hge => absurd hge (by omega)⟩
    · rw [heq]
      intro hf
      exact Bool.noConfusion hf
    · intro _
      exact ⟨cr2, hcr2, heq⟩

/-- Witness for C8: a full capacity-2 ring buffer rejects a write, and the
fresh capacity-2 buffer accepts one, storing the element at slot 0 and
advancing write_pos to 1. -/
theorem rb_try_write_spec_witness :
    (RingBuffer.try_write 9 (⟨2, 1, 2, 0, 0, 0, [some 7, some 8]⟩ :
        RingBuffer.State Nat)).1 = false ∧
    (∃ cr2, cr2 ≤ (RingBuffer.init Nat 2).read_pos ∧
      RingBuffer.try_write 5 (RingBuffer.init Nat 2) = (true,
        { RingBuffer.init Nat 2 with
            cached_read_pos := cr2,
            storage := (RingBuffer.init Nat 2).storage.set
              ((RingBuffer.init Nat 2).write_pos &&& (RingBuffer.init Nat 2).mask) (some 5),
            write_pos := (RingBuffer.init Nat 2).write_pos + 1 })) :=
  ⟨(rb_try_write_spec Nat 1 (⟨2, 1, 2, 0, 0, 0, [some 7, some 8]⟩ : RingBuffer.State Nat)
      [7, 8] ⟨rfl, rfl, rfl, rfl, by decide, by decide, by decide, by decide⟩ 9).1.2
      (by decide),
   (rb_try_write_spec Nat 1 (RingBuffer.init Nat 2) []
      (RingBuffer.clean_initR Nat 2 1 (by decide)) 5).2.2.1 (by decide)⟩

namespace MPMCQueue

theorem try_dequeue_stuck {T} {s : State T} {node : Slot T}
    (hnode : s.buffer[s.dequeue_pos &&& s.mask]? = some node)
    (hgt : s.dequeue_pos + 1 < node.sequence) (fuel : Nat) :
    try_dequeue s fuel = none := by
  unfold try_dequeue
  rw [claimDeq_stuck hnode hgt fuel]

theorem try_dequeue_out_stuck {T} {s : State T} {node : Slot T}
    (hnode : s.buffer[s.dequeue_pos &&& s.mask]? = some node)
    (hgt : s.dequeue_pos + 1 < node.sequence) (fuel : Nat) :
    try_dequeue_out s fuel = none := by
  unfold try_dequeue_out
  rw [claimDeq_stuck hnode hgt fuel]

end MPMCQueue

/-- Claim C9 (amended): exception paths of an insertion whose element
constructor fails.  In the bounded MPMC queue the claimed slot's sequence is
set to the sentinel pos + capacity and the exception is rethrown; the
examined slot afterwards holds the sentinel sequence and no element.  The
sentinel permanently poisons that logical position: from an empty queue of
capacity at least 2, after one construction failure every subsequent
dequeue attempt spins on the sentinel slot (diff = capacity - 1 > 0 with an
unchanging cursor) and never completes, so the original claim's "the
structure's bookkeeping stays usable for subsequent unrelated operations"
is wrong for the bounded queue.  An error result of the queue's insertion
can only come from a failing element constructor: full and empty are
reported as plain values.  In the SPSC ring buffer the exception does not
propagate at all: the catch block swallows it and try_write returns false
with write_pos and every stored element unchanged (only the cached read
cursor may have been refreshed), so the claim's "the exception propagates
to the caller" is wrong for the ring buffer (see the counterexample for
both divergences). -/
theorem exception_paths (T E : Type) :
    (∀ (k : Nat) (s : MPMCQueue.State T) (pending : List T),
      MPMCQueue.Clean k s pending → pending.length < s.capacity →
      ∀ (e : E) (fuel : Nat),
        MPMCQueue.try_emplace_exc (Except.error e) s (fuel + 1) =
          some (Except.error (e,
            MPMCQueue.setSlotSeq ({ s with enqueue_pos := s.enqueue_pos + 1 })
              (s.enqueue_pos &&& s.mask) (s.enqueue_pos + s.capacity))) ∧
        MPMCQueue.slotAt
            (MPMCQueue.setSlotSeq ({ s with enqueue_pos := s.enqueue_pos + 1 })
              (s.enqueue_pos &&& s.mask) (s.enqueue_pos + s.capacity)) s.enqueue_pos =
          some { sequence := s.enqueue_pos + s.capacity, storage := none }) ∧
    (∀ (k : Nat) (s : MPMCQueue.State T),
      MPMCQueue.Clean k s [] → 2 ≤ s.capacity →
      ∀ (e : E) (fuel : Nat),
        ∃ t, MPMCQueue.try_emplace_exc (Except.error e) s (fuel + 1) =
            some (Except.error (e, t)) ∧
          ∀ fuel2 : Nat, MPMCQueue.try_dequeue t fuel2 = none ∧
            MPMCQueue.try_dequeue_out t fuel2 = none) ∧
    (∀ (mk : Except E T) (s : MPMCQueue.State T) (fuel : Nat)
      (p : E × MPMCQueue.State T),
      MPMCQueue.try_emplace_exc mk s fuel = some (Except.error p) →
      ∃ e, mk = Except.error e) ∧
    (∀ (mk : Except E T) (s : RingBuffer.State T),
      ∃ p, RingBuffer.try_write_exc mk s = Except.ok p) ∧
    (∀ (k : Nat) (s : RingBuffer.State T) (pending : List T),
      RingBuffer.Clean k s pending → pending.length < s.capacity →
      ∀ e : E, ∃ cr2, cr2 ≤ s.read_pos ∧
        RingBuffer.try_write_exc (Except.error e) s =
          Except.ok (false, { s with cached_read_pos := cr2 })) := by
  refine ⟨?_, ?_, ?_, ?_, ?_⟩
  · intro k s pending hc hlt e fuel
    have hslot := MPMCQueue.Clean.slot_enq_free hc hlt
    constructor
    · exact MPMCQueue.try_emplace_exc_ready hslot rfl e fuel
    · have hslot2 : MPMCQueue.slotAt ({ s with enqueue_pos := s.enqueue_pos + 1 } :
          MPMCQueue.State T) s.enqueue_pos =
          some { sequence := s.enqueue_pos, storage := none } := hslot
      exact MPMCQueue.setSlotSeq_slotAt hslot2 (s.enqueue_pos + s.capacity)
  · intro k s hc hcap2 e fuel
    have hslot := MPMCQueue.Clean.slot_enq_free hc
      (by show (0 : Nat) < s.capacity; omega)
    refine ⟨MPMCQueue.setSlotSeq ({ s with enqueue_pos := s.enqueue_pos + 1 })
        (s.enqueue_pos &&& s.mask) (s.enqueue_pos + s.capacity),
      MPMCQueue.try_emplace_exc_ready hslot rfl e fuel, ?_⟩
    intro fuel2
    have hslot2 : MPMCQueue.slotAt ({ s with enqueue_pos := s.enqueue_pos + 1 } :
        MPMCQueue.State T) s.enqueue_pos =
        some { sequence := s.enqueue_pos, storage := none } := hslot
    have hst := MPMCQueue.setSlotSeq_slotAt hslot2 (s.enqueue_pos + s.capacity)
    have hde : s.enqueue_pos = s.dequeue_pos := by
      have h2 := hc.2.1
      simpa using h2
    have hnode : MPMCQueue.slotAt
        (MPMCQueue.setSlotSeq ({ s with enqueue_pos := s.enqueue_pos + 1 })
          (s.enqueue_pos &&& s.mask) (s.enqueue_pos + s.capacity)) s.dequeue_pos =
        some { sequence := s.enqueue_pos + s.capacity, storage := none } := by
      rw [← hde]
      exact hst
    constructor
    · exact MPMCQueue.try_dequeue_stuck hnode
        (by show s.dequeue_pos + 1 < s.enqueue_pos + s.capacity; omega) fuel2
    · exact MPMCQueue.try_dequeue_out_stuck hnode
        (by show s.dequeue_pos + 1 < s.enqueue_pos + s.capacity; omega) fuel2
  · intro mk s fuel p h
    unfold MPMCQueue.try_emplace_exc at h
    cases hcl : MPMCQueue.claimEnq s s.enqueue_pos fuel with
    | none =>
      rw [hcl] at h
      exact absurd h (by simp)
    | some o =>
      cases o with
      | none =>
        rw [hcl] at h
        exact absurd h (by simp)
      | some pr =>
        obtain ⟨pos, s1⟩ := pr
        rw [hcl] at h
        cases mk with
        | error e => exact ⟨e, rfl⟩
        | ok v =>
          simp only [] at h
          exact absurd h (by simp)
  · intro mk s
    by_cases h1 : s.capacity ≤ s.write_pos - s.cached_read_pos
    · simp only [RingBuffer.try_write_exc]
      rw [if_pos h1]
      simp only []
      by_cases h2 : s.capacity ≤ s.write_pos - s.read_pos
      · rw [if_pos h2]
        exact ⟨_, rfl⟩
      · rw [if_neg h2]
        cases mk with
        | error e => exact ⟨_, rfl⟩
        | ok v => exact ⟨_, rfl⟩
    · simp only [RingBuffer.try_write_exc]
      rw [if_neg h1]
      rw [if_neg h1]
      cases mk with
      | error e => exact ⟨_, rfl⟩
      | ok v => exact ⟨_, rfl⟩
  · intro k s pending hc hlt e
    exact RingBuffer.try_write_exc_err hc hlt e

/-- Witness for C9: a failing constructor on a fresh capacity-2 queue leaves
the slot with the sentinel sequence 0 + 2 and rethrows; from the resulting
state every dequeue attempt, at any fuel, fails to complete; on a fresh
capacity-2 ring buffer the failure is swallowed and reported as false. -/
theorem exception_paths_witness :
    MPMCQueue.try_emplace_exc (Except.error 3) (MPMCQueue.init Nat 2) 1 =
      some (Except.error (3,
        MPMCQueue.setSlotSeq
          ({ MPMCQueue.init Nat 2 with enqueue_pos := (MPMCQueue.init Nat 2).enqueue_pos + 1 })
          ((MPMCQueue.init Nat 2).enqueue_pos &&& (MPMCQueue.init Nat 2).mask)
          ((MPMCQueue.init Nat 2).enqueue_pos + (MPMCQueue.init Nat 2).capacity))) ∧
    (∃ t, MPMCQueue.try_emplace_exc (Except.error 7) (MPMCQueue.init Nat 2) 1 =
        some (Except.error (7, t)) ∧
      ∀ fuel2 : Nat, MPMCQueue.try_dequeue t fuel2 = none ∧
        MPMCQueue.try_dequeue_out t fuel2 = none) ∧
    (∃ cr2, cr2 ≤ (RingBuffer.init Nat 2).read_pos ∧
      RingBuffer.try_write_exc (Except.error 3) (RingBuffer.init Nat 2) =
        Except.ok (false, { RingBuffer.init Nat 2 with cached_read_pos := cr2 })) :=
  ⟨((exception_paths Nat Nat).1 1 (MPMCQueue.init Nat 2) []
      (MPMCQueue.clean_init Nat 2 1 (by decide)) (by decide) 3 0).1,
   (exception_paths Nat Nat).2.1 1 (MPMCQueue.init Nat 2)
      (MPMCQueue.clean_init Nat 2 1 (by decide)) (by decide) 7 0,
   (exception_paths Nat Nat).2.2.2.2 1 (RingBuffer.init Nat 2) []
      (RingBuffer.clean_initR Nat 2 1 (by decide)) (by decide) 3⟩

/-- Counterexample to C9 as stated, in both directions the original claim
fails.  On a fresh capacity-1 ring buffer a write whose element constructor
fails does not propagate the exception: try_write catches it and returns
false, leaving the state exactly as it was.  On a fresh capacity-2 MPMC
queue a failing constructor rethrows after planting the sentinel sequence 2
in slot 0; from that concrete state the bookkeeping is not usable: every
subsequent dequeue attempt, at every fuel bound, spins on the sentinel slot
and never completes. -/
theorem exception_paths_cex :
    RingBuffer.try_write_exc (Except.error 42) (RingBuffer.init Nat 1) =
      Except.ok (false, RingBuffer.init Nat 1) ∧
    MPMCQueue.try_emplace_exc (Except.error 42) (MPMCQueue.init Nat 2) 1 =
      some (Except.error (42, ⟨2, 1, 1, 0, [⟨2, none⟩, ⟨1, none⟩]⟩)) ∧
    (∀ fuel : Nat,
      MPMCQueue.try_dequeue
        (⟨2, 1, 1, 0, [⟨2, none⟩, ⟨1, none⟩]⟩ : MPMCQueue.State Nat) fuel = none ∧
      MPMCQueue.try_dequeue_out
        (⟨2, 1, 1, 0, [⟨2, none⟩, ⟨1, none⟩]⟩ : MPMCQueue.State Nat) fuel = none) := by
  have hnode : (⟨2, 1, 1, 0, [⟨2, none⟩, ⟨1, none⟩]⟩ :
      MPMCQueue.State Nat).buffer[(⟨2, 1, 1, 0, [⟨2, none⟩, ⟨1, none⟩]⟩ :
      MPMCQueue.State Nat).dequeue_pos &&& (⟨2, 1, 1, 0, [⟨2, none⟩, ⟨1, none⟩]⟩ :
      MPMCQueue.State Nat).mask]? = some (⟨2, none⟩ : MPMCQueue.Slot Nat) := by
    decide
  exact ⟨rfl, rfl, fun fuel =>
    ⟨MPMCQueue.try_dequeue_stuck hnode (by decide) fuel,
     MPMCQueue.try_dequeue_out_stuck hnode (by decide) fuel⟩⟩

/-- Claim C10: on an empty structure, each out-parameter entry point returns
false and never assigns to the caller's out parameter: the dequeue of a
reachable empty MPMC queue, the read of a reachable empty ring buffer (which
only refreshes the cached write cursor) and the pop of a stack whose head is
null. -/
theorem out_param_untouched_on_empty :
    (∀ (T : Type) (k : Nat) (s : MPMCQueue.State T), MPMCQueue.Clean k s [] →
      ∀ fuel : Nat, MPMCQueue.try_dequeue_out s (fuel + 1) = some ((false, none), s)) ∧
    (∀ (T : Type) (k : Nat) (s : RingBuffer.State T), RingBuffer.Clean k s [] →
      RingBuffer.try_read_out s =
        some ((false, none), { s with cached_write_pos := s.write_pos })) ∧
    (∀ (T : Type) (s : LockFreeStack.State T), s.head = none →
      LockFreeStack.try_pop s = some (false, none, s)) := by
  refine ⟨?_, ?_, ?_⟩
  · intro T k s hc fuel
    have hcappos : 0 < s.capacity := MPMCQueue.wf_cap_pos hc.1
    have hslot := hc.2.2.2.2 ⟨0, hcappos⟩ (by simp)
    have hslot2 : MPMCQueue.slotAt s s.dequeue_pos =
        some { sequence := s.dequeue_pos, storage := none } := by simpa using hslot
    exact MPMCQueue.try_dequeue_out_emptyret hslot2
      (by show s.dequeue_pos < s.dequeue_pos + 1; omega) fuel
  · intro T k s hc
    exact RingBuffer.try_read_out_clean_empty hc
  · intro T s h
    unfold LockFreeStack.try_pop
    rw [h]

/-- Witness for C10: the three entry points on fresh structures. -/
theorem out_param_untouched_on_empty_witness :
    MPMCQueue.try_dequeue_out (MPMCQueue.init Nat 2) 1 =
      some ((false, none), MPMCQueue.init Nat 2) ∧
    RingBuffer.try_read_out (RingBuffer.init Nat 2) =
      some ((false, none),
        { RingBuffer.init Nat 2 with cached_write_pos := (RingBuffer.init Nat 2).write_pos }) ∧
    LockFreeStack.try_pop (LockFreeStack.init Nat) =
      some (false, none, LockFreeStack.init Nat) :=
  ⟨out_param_untouched_on_empty.1 Nat 1 (MPMCQueue.init Nat 2)
      (MPMCQueue.clean_init Nat 2 1 (by decide)) 0,
   out_param_untouched_on_empty.2.1 Nat 1 (RingBuffer.init Nat 2)
      (RingBuffer.clean_initR Nat 2 1 (by decide)),
   out_param_untouched_on_empty.2.2 Nat (LockFreeStack.init Nat) rfl⟩
